import Mathlib

/-!
Verification development for the obsidian-ai-tools repository.

The sync engine (`generateEmbeddings` in src/generate-embeddings.ts) is embedded as a
pure state-transition function over an explicit record-store state, with an environment
`Env` supplying the external collaborators (hash, markdown utilities, embedding provider)
and injecting failures of the individual store/provider calls.  The search modal's
`getSuggestionsInternal` (src/main.ts) is embedded as a pure function producing the
list of external provider calls it performs.
-/

namespace ObsidianAITools

/-- A vault file as the sync engine sees it: its path and the raw markdown text
returned by `cachedRead`. -/
structure TFile where
  path : String
  content : String
deriving Repr, DecidableEq

/-- A row of the `document` table: columns `id`, `path`, `checksum`, `public`
(named `isPublic` here since `public` reads poorly in Lean), `meta`. -/
structure Document where
  id : Nat
  path : String
  checksum : Option String
  isPublic : Bool
  meta : List (String × String)
deriving Repr, DecidableEq

/-- A row of the `document_section` table. -/
structure DocumentSection where
  document_id : Nat
  content : String
  token_count : Nat
  embedding : List Int
deriving Repr, DecidableEq

/-- The record store: the two tables plus the id the store assigns to the next
freshly inserted document row. -/
structure Store where
  docs : List Document
  sections : List DocumentSection
  nextId : Nat
deriving Repr, DecidableEq

/-- The result counters returned by `generateEmbeddings`. -/
structure EmbeddingResult where
  successCount : Nat
  updatedCount : Nat
  errorCount : Nat
  deleteCount : Nat
deriving Repr, DecidableEq

/-! Character-level string helpers.  Core's `String.trim`, `String.splitOn` and
`String.startsWith` are defined by well-founded recursion and therefore do not reduce
inside the kernel; the model uses these structurally recursive equivalents so that
every concrete witness evaluates by `decide`. -/

/-- `pre` is a leading piece of `s` (JavaScript `s.startsWith(pre)`). -/
def strStartsWith (s pre : String) : Bool := pre.data.isPrefixOf s.data

/-- `suf` is a trailing piece of `s` (JavaScript `s.endsWith(suf)`). -/
def strEndsWith (s suf : String) : Bool := suf.data.reverse.isPrefixOf s.data.reverse

/-- Split a character list on a separator character; always returns at least one
group, like JavaScript `split`. -/
def splitOnChar (c : Char) : List Char → List (List Char)
  | [] => [[]]
  | a :: as =>
    let r := splitOnChar c as
    if a = c then [] :: r
    else
      match r with
      | [] => [[a]]
      | g :: gs => (a :: g) :: gs

/-- Split a string into its `/`-separated segments. -/
def strSplitSlash (s : String) : List String := (splitOnChar '/' s.data).map List.asString

/-- Split a string into its lines. -/
def strLines (s : String) : List String := (splitOnChar '\n' s.data).map List.asString

/-- Join segments with `/` separators. -/
def strJoinSlash : List String → String
  | [] => ""
  | [a] => a
  | a :: b :: rest => a ++ "/" ++ strJoinSlash (b :: rest)

/-- Join lines with newline separators. -/
def strJoinLines : List String → String
  | [] => ""
  | [a] => a
  | a :: b :: rest => a ++ "\n" ++ strJoinLines (b :: rest)

/-- JavaScript `s.trim()`: strip leading and trailing whitespace. -/
def jsTrim (s : String) : String :=
  ⟨((s.data.dropWhile Char.isWhitespace).reverse.dropWhile Char.isWhitespace).reverse⟩

/-- Segment resolution of Node's `path.normalize` (posix flavour): drop empty and `.`
segments, let `..` pop the previous segment, keeping leading `..` segments only for
relative paths. -/
def normSegs (allowAboveRoot : Bool) : List String → List String → List String
  | acc, [] => acc.reverse
  | acc, seg :: rest =>
    if seg = "" ∨ seg = "." then normSegs allowAboveRoot acc rest
    else if seg = ".." then
      match acc with
      | [] => normSegs allowAboveRoot (if allowAboveRoot then [".."] else []) rest
      | a :: tl =>
        if a = ".." then normSegs allowAboveRoot (".." :: a :: tl) rest
        else normSegs allowAboveRoot tl rest
    else normSegs allowAboveRoot (seg :: acc) rest

/-- Node's `path.normalize` (posix): resolve `.`/`..` segments, collapse repeated
separators, preserve a trailing separator, return `.` for an empty result. -/
def normalizePath (p : String) : String :=
  if p = "" then "."
  else
    let isAbs := strStartsWith p "/"
    let trailing := strEndsWith p "/"
    let segs := normSegs (!isAbs) [] (strSplitSlash p)
    let body := strJoinSlash segs
    if body = "" then
      if isAbs then "/" else if trailing then "./" else "."
    else
      let body1 := if trailing then body ++ "/" else body
      if isAbs then "/" ++ body1 else body1

/-- src/generate-embeddings.ts `isFileInDirectories`: the normalized file path starts
with one of the normalized directory prefixes. -/
def isFileInDirectories (filePath : String) (directories : List String) : Bool :=
  let normalizedFilePath := normalizePath filePath
  let normalizedDirectories := directories.map normalizePath
  normalizedDirectories.any (fun directory => strStartsWith normalizedFilePath directory)

/-- The environment of `generateEmbeddings`: the imported collaborators (`createHash`,
the utilities from src/utils.ts, the OpenAI embedding endpoint, the `config` value) and,
for each store/provider call the code makes, a flag saying whether that call errors.
`charsFromPreviousParagraph` is an `Option` because the shipped `config` object in
src/config.ts does not define this field: reading it in JavaScript yields `undefined`,
and `undefined > 0` is false. -/
structure Env where
  hash : String → String
  parseMarkdown : String → String × List (String × String)
  smartChunkParagraphs : String → List String
  createChunkContext : String → List (String × String) → String → String → String
  charsFromPreviousParagraph : Option Nat
  embedTokens : String → Nat
  embedVector : String → List Int
  fetchDocumentFails : String → Bool
  updateAccessFails : String → Bool
  deleteSectionsFails : String → Bool
  upsertFails : String → Bool
  embedFails : String → Nat → Bool
  insertSectionFails : String → Nat → Bool
  updateChecksumFails : String → Bool
  listDocumentsFails : Bool
  deleteDocumentFails : String → Bool

/-- The store/provider operations the sync engine issues, in the order it issues them. -/
inductive Op where
  | fetchDoc : String → Op
  | updateAccess : Nat → Bool → Op
  | deleteSections : Nat → Op
  | upsertDoc : String → Option String → Bool → Op
  | embed : String → Op
  | insertSection : Nat → String → Op
  | updateChecksum : Nat → String → Op
  | listDocs : Op
  | deleteDoc : String → Op
deriving Repr, DecidableEq

/-- Terminal outcome of the per-document state machine. -/
inductive FileOutcome where
  | skipped
  | accessUpdated
  | reindexed
  | failed
deriving Repr, DecidableEq

/-- Counter increments per outcome, exactly as the code increments the counters. -/
def outcomeDelta : FileOutcome → EmbeddingResult
  | .skipped => ⟨1, 0, 0, 0⟩
  | .accessUpdated => ⟨1, 1, 0, 0⟩
  | .reindexed => ⟨1, 1, 0, 0⟩
  | .failed => ⟨0, 0, 1, 0⟩

def addRes (a b : EmbeddingResult) : EmbeddingResult :=
  ⟨a.successCount + b.successCount, a.updatedCount + b.updatedCount,
   a.errorCount + b.errorCount, a.deleteCount + b.deleteCount⟩

def sumDeltas (os : List FileOutcome) : EmbeddingResult :=
  os.foldr (fun o r => addRes (outcomeDelta o) r) ⟨0, 0, 0, 0⟩

/-- The `select ... filter path eq ... maybeSingle` point lookup. -/
def docAt (st : Store) (p : String) : Option Document :=
  st.docs.find? (fun d => d.path == p)

/-- JavaScript object key assignment `fm[k] = v`. -/
def setMeta (fm : List (String × String)) (k v : String) : List (String × String) :=
  if fm.any (fun kv => kv.fst == k) then
    fm.map (fun kv => if kv.fst == k then (k, v) else kv)
  else fm ++ [(k, v)]

/-- JavaScript `s.slice(s.length - n)` for `s.length > n`: the trailing `n` characters. -/
def takeRight (s : String) (n : Nat) : String := ⟨s.data.drop (s.data.length - n)⟩

/-- The `previousSectionChopped` computation of src/generate-embeddings.ts lines
149-162: empty unless `i > 0`, the configured overlap exists and is positive, and the
previous section is strictly longer than the overlap. -/
def overlapOf (e : Env) (sections : List String) (i : Nat) : String :=
  match e.charsFromPreviousParagraph with
  | none => ""
  | some n =>
    if 0 < i ∧ 0 < n then
      let previousSection := sections.getD (i - 1) ""
      if n < previousSection.length then takeRight previousSection n else ""
    else ""

/-- For each chunk, the pair of its raw text and of the input string handed to the
embedding call (`createChunkContext(section, frontmatter, file.path, chopped)`). -/
def chunkInputsAux (e : Env) (fpath : String) (fm : List (String × String))
    (allSections : List String) : Nat → List String → List (String × String)
  | _, [] => []
  | i, s :: rest =>
    (s, e.createChunkContext s fm fpath (overlapOf e allSections i)) ::
      chunkInputsAux e fpath fm allSections (i + 1) rest

def chunkInputs (e : Env) (fpath : String) (fm : List (String × String))
    (sections : List String) : List (String × String) :=
  chunkInputsAux e fpath fm sections 0 sections

/-- The per-section loop of src/generate-embeddings.ts lines 146-213: embed each chunk
and insert its `document_section` row, aborting the document on the first failure.
Returns the store, a success flag, and the issued operations. -/
def embedLoop (e : Env) (fpath : String) (docId : Nat) :
    Nat → List (String × String) → Store → Store × Bool × List Op
  | _, [], st => (st, true, [])
  | i, (s, input) :: rest, st =>
    if e.embedFails fpath i then (st, false, [.embed input])
    else if e.insertSectionFails fpath i then
      (st, false, [.embed input, .insertSection docId s])
    else
      let st1 : Store :=
        { st with sections :=
            st.sections ++ [⟨docId, s, e.embedTokens input, e.embedVector input⟩] }
      let r := embedLoop e fpath docId (i + 1) rest st1
      (r.1, r.2.1, .embed input :: .insertSection docId s :: r.2.2)

/-- The `upsert ... onConflict path ... select single` call: update the conflicting row
(keeping its id) or insert a fresh row.  Returns the id of the affected row. -/
def upsertDocument (st : Store) (p : String) (meta : List (String × String))
    (isPub : Bool) : Store × Nat :=
  match st.docs.find? (fun d => d.path == p) with
  | some d0 =>
    ({ st with docs := st.docs.map (fun d =>
        if d.path == p then { d with checksum := none, isPublic := isPub, meta := meta }
        else d) }, d0.id)
  | none =>
    ({ st with
        docs := st.docs ++ [{ id := st.nextId, path := p, checksum := none,
                              isPublic := isPub, meta := meta }],
        nextId := st.nextId + 1 }, st.nextId)

/-- The re-index tail of the per-document state machine (src/generate-embeddings.ts
lines 110-226): parse, chunk, upsert the document with a null checksum, embed and
insert every section, then set the checksum. -/
def reindexCore (e : Env) (st : Store) (f : TFile) (checksum : String)
    (isPub : Bool) : Store × FileOutcome × List Op :=
  let parsed := e.parseMarkdown f.content
  let sections := e.smartChunkParagraphs parsed.1
  let fm := setMeta parsed.2 "path" f.path
  if e.upsertFails f.path then (st, .failed, [.upsertDoc f.path none isPub])
  else
    let up := upsertDocument st f.path fm isPub
    let docId := up.2
    let r := embedLoop e f.path docId 0 (chunkInputs e f.path fm sections) up.1
    if r.2.1 then
      if e.updateChecksumFails f.path then
        (r.1, .failed, .upsertDoc f.path none isPub :: r.2.2 ++ [.updateChecksum docId checksum])
      else
        ({ r.1 with docs := r.1.docs.map (fun d =>
            if d.id == docId then { d with checksum := some checksum } else d) },
         .reindexed, .upsertDoc f.path none isPub :: r.2.2 ++ [.updateChecksum docId checksum])
    else (r.1, .failed, .upsertDoc f.path none isPub :: r.2.2)

/-- The per-document body of the sync loop (src/generate-embeddings.ts lines 42-233):
fetch the existing row, compare checksum and visibility, and skip, update access, or
re-index; any thrown error yields the `failed` outcome. -/
def processFile (e : Env) (pub : List String) (st : Store) (f : TFile) :
    Store × FileOutcome × List Op :=
  if e.fetchDocumentFails f.path then (st, .failed, [.fetchDoc f.path])
  else
    let checksum := e.hash f.content
    let isPub := isFileInDirectories f.path pub
    match docAt st f.path with
    | some d =>
      if d.checksum = some checksum then
        if d.isPublic = isPub then (st, .skipped, [.fetchDoc f.path])
        else if e.updateAccessFails f.path then
          (st, .failed, [.fetchDoc f.path, .updateAccess d.id isPub])
        else
          ({ st with docs := st.docs.map (fun x =>
              if x.id == d.id then { x with isPublic := isPub } else x) },
           .accessUpdated, [.fetchDoc f.path, .updateAccess d.id isPub])
      else if e.deleteSectionsFails f.path then
        (st, .failed, [.fetchDoc f.path, .deleteSections d.id])
      else
        let st0 : Store :=
          { st with sections := st.sections.filter (fun s => s.document_id != d.id) }
        let r := reindexCore e st0 f checksum isPub
        (r.1, r.2.1, .fetchDoc f.path :: .deleteSections d.id :: r.2.2)
    | none =>
      let r := reindexCore e st f checksum isPub
      (r.1, r.2.1, .fetchDoc f.path :: r.2.2)

/-- The main per-document pass over the (already exclusion-filtered) file list. -/
def processFiles (e : Env) (pub : List String) :
    Store → List TFile → Store × List FileOutcome × List Op
  | st, [] => (st, [], [])
  | st, f :: fs =>
    let r := processFile e pub st f
    let rest := processFiles e pub r.1 fs
    (rest.1, r.2.1 :: rest.2.1, r.2.2 ++ rest.2.2)

/-- Delete-by-path on the document table; the store cascades the delete to the
document's sections through the foreign key. -/
def deleteByPath (st : Store) (p : String) : Store :=
  let ids := (st.docs.filter (fun d => d.path == p)).map Document.id
  { st with
    docs := st.docs.filter (fun d => d.path != p),
    sections := st.sections.filter (fun s => !(ids.contains s.document_id)) }

/-- The reconciliation loop over the snapshot of stored documents
(src/generate-embeddings.ts lines 248-272): skip documents whose path is live, attempt
to delete the rest; a failed delete increments the error counter, and the delete
counter is incremented unconditionally afterwards. -/
def reconcileGo (e : Env) (files : List TFile) :
    List Document → Store → Store × EmbeddingResult × List Op
  | [], st => (st, ⟨0, 0, 0, 0⟩, [])
  | d :: ds, st =>
    if files.any (fun f => f.path == d.path) then reconcileGo e files ds st
    else if e.deleteDocumentFails d.path then
      let r := reconcileGo e files ds st
      (r.1, addRes ⟨0, 0, 1, 1⟩ r.2.1, .deleteDoc d.path :: r.2.2)
    else
      let r := reconcileGo e files ds (deleteByPath st d.path)
      (r.1, addRes ⟨0, 0, 0, 1⟩ r.2.1, .deleteDoc d.path :: r.2.2)

/-- The dangling-document reconciliation pass (src/generate-embeddings.ts lines
236-273): list all stored documents (a listing failure only increments the error
counter), then run the deletion loop over that snapshot. -/
def reconcile (e : Env) (files : List TFile) (st : Store) :
    Store × EmbeddingResult × List Op :=
  if e.listDocumentsFails then (st, ⟨0, 0, 1, 0⟩, [.listDocs])
  else
    let r := reconcileGo e files st.docs st
    (r.1, r.2.1, .listDocs :: r.2.2)

/-- src/generate-embeddings.ts `generateEmbeddings`: filter out excluded files, run the
per-document pass, then the reconciliation pass.  Returns the counters, the final
store, and the full operation trace. -/
def generateEmbeddings (e : Env) (excludeDirs publicDirs : List String)
    (vault : List TFile) (st : Store) : EmbeddingResult × Store × List Op :=
  let files := vault.filter (fun f => !(isFileInDirectories f.path excludeDirs))
  let mainPass := processFiles e publicDirs st files
  let recon := reconcile e files mainPass.1
  (addRes (sumDeltas mainPass.2.1) recon.2.1, recon.1, mainPass.2.2 ++ recon.2.2)

/-- Modelled from the spec: `parseMarkdown` from src/utils.ts, which is absent from
src/.  Spec section 4.1: front matter is a delimited leading block of key/value pairs;
if absent or malformed it is treated as absent, with the content equal to the input. -/
def parseMarkdown (md : String) : String × List (String × String) :=
  match strLines md with
  | "---" :: rest =>
    match rest.findIdx? (fun l => l == "---") with
    | some i =>
      (strJoinLines (rest.drop (i + 1)),
       (rest.take i).filterMap (fun l =>
         match splitOnChar ':' l.data with
         | [k, v] => some (⟨k⟩, ⟨v.dropWhile (fun c => c = ' ')⟩)
         | _ => none))
    | none => (md, [])
  | _ => (md, [])

/-- Modelled from the spec: `createChunkContext` from src/utils.ts, which is absent
from src/.  Spec section 4.3: serialize relevant front-matter fields (at least `path`)
as a short header, followed by `precedingTail`, followed by the chunk's own text. -/
def createChunkContext (chunk : String) (_frontmatter : List (String × String))
    (filePath : String) (precedingTail : String) : String :=
  "path: " ++ filePath ++ "\n" ++ precedingTail ++ chunk

/-- The embedding input exactly as claim C9 words it: the header, then the trailing
overlap-size characters of the previous chunk — empty only for the first chunk or when
the overlap size is 0 — then the chunk's own text.  Claim-side definition, to be
compared with the code's behaviour. -/
def claimedEmbedInput (n : Nat) (fm : List (String × String)) (fpath : String)
    (sections : List String) (i : Nat) : String :=
  createChunkContext (sections.getD i "") fm fpath
    (if i = 0 ∨ n = 0 then "" else takeRight (sections.getD (i - 1) "") n)

/-- A search result row as returned by the similarity query. -/
structure SearchResult where
  content : String
  similarity : Int
  path : String
deriving Repr, DecidableEq

/-- The mutable state of the search modal that `getSuggestionsInternal` touches. -/
structure ModalState where
  results : List SearchResult
  searchQuery : String
deriving Repr, DecidableEq

/-- The external provider calls the search path can make. -/
inductive SCall where
  | moderation : String → SCall
  | embedQuery : String → SCall
  | storeQuery : String → SCall
  | chat : String → SCall
deriving Repr, DecidableEq

/-- Environment of the search path: the moderation verdict and the behaviour of the
semantic search backend. -/
structure SearchEnv where
  flagged : String → Bool
  semanticSearchFails : String → Bool
  semanticSearchResults : String → List SearchResult

/-- Modelled from the spec: `semanticSearch` from src/search.ts, which is absent from
src/.  Only its provider-call structure matters for the claims settled here: it embeds
the query and issues the record-store similarity query; `none` models a thrown error. -/
def semanticSearch (e : SearchEnv) (query : String) :
    List SCall × Option (List SearchResult) :=
  ([.embedQuery query, .storeQuery query],
   if e.semanticSearchFails query then none else some (e.semanticSearchResults query))

/-- src/main.ts `getSuggestionsInternal` (lines 522-566): if the query is new and long
enough (or forced), moderate it; a flagged query clears the results and throws before
any search happens; otherwise run the semantic search, treating its error as an empty
result list.  Returns the new state, the provider calls made, and whether the
"Flagged content" error was thrown. -/
def getSuggestionsInternal (e : SearchEnv) (st : ModalState) (query : String)
    (minLengthBeforeAutoSearch : Nat) (forceDespiteLength : Bool) :
    ModalState × List SCall × Bool :=
  if jsTrim query ≠ jsTrim st.searchQuery ∧
      (minLengthBeforeAutoSearch < query.length ∨ forceDespiteLength = true) then
    let st1 : ModalState := { st with searchQuery := query }
    if e.flagged (jsTrim query) then
      ({ st1 with results := [] }, [.moderation (jsTrim query)], true)
    else
      let r := semanticSearch e query
      (match r.2 with
       | some results => { st1 with results := results }
       | none => { st1 with results := [] },
       .moderation (jsTrim query) :: r.1, false)
  else (st, [], false)

/-- The section rows inserted by a fully successful `embedLoop` run over `pairs`. -/
def loopSections (e : Env) (docId : Nat) (pairs : List (String × String)) :
    List DocumentSection :=
  pairs.map (fun si => ⟨docId, si.1, e.embedTokens si.2, e.embedVector si.2⟩)

/-- The operations issued by a fully successful `embedLoop` run over `pairs`. -/
def loopTrace (docId : Nat) (pairs : List (String × String)) : List Op :=
  pairs.foldr (fun si acc => .embed si.2 :: .insertSection docId si.1 :: acc) []

/-- Store well-formedness, as guaranteed by the record store itself: paths are unique
(the `path` column carries a unique constraint, witnessed by `onConflict path`), ids
are unique, and `nextId` is fresh. -/
def WF (st : Store) : Prop :=
  ((st.docs.map Document.path).Nodup ∧ (st.docs.map Document.id).Nodup) ∧
    ∀ d ∈ st.docs, d.id < st.nextId

/-- The store records file `f` as fully indexed: its row carries the checksum of the
current content and the currently computed visibility. -/
def goodFor (e : Env) (pub : List String) (st : Store) (f : TFile) : Prop :=
  ∃ d, docAt st f.path = some d ∧ d.checksum = some (e.hash f.content) ∧
    d.isPublic = isFileInDirectories f.path pub

/-- Whether an operation fetches or upserts (i.e. reads, diffs or indexes) the document
at path `p`. -/
def opFetchesOrUpserts (op : Op) (p : String) : Bool :=
  match op with
  | .fetchDoc q => q == p
  | .upsertDoc q _ _ => q == p
  | _ => false

/-- A concrete environment in which no external call fails, with the spec-modelled
utilities plugged in; used to witness the theorems on concrete inputs. -/
def noFailEnv : Env where
  hash := fun s => s
  parseMarkdown := parseMarkdown
  smartChunkParagraphs := fun s => [s]
  createChunkContext := createChunkContext
  charsFromPreviousParagraph := none
  embedTokens := fun _ => 1
  embedVector := fun _ => [1]
  fetchDocumentFails := fun _ => false
  updateAccessFails := fun _ => false
  deleteSectionsFails := fun _ => false
  upsertFails := fun _ => false
  embedFails := fun _ _ => false
  insertSectionFails := fun _ _ => false
  updateChecksumFails := fun _ => false
  listDocumentsFails := false
  deleteDocumentFails := fun _ => false

/-- The empty record store. -/
def emptyStore : Store := ⟨[], [], 0⟩

/-- Concrete environment for exercising the chunk-overlap computation: a configured
overlap of 2 characters and a chunker producing the two chunks `ab` and `cd`. -/
def overlapEnv : Env :=
  { noFailEnv with
    charsFromPreviousParagraph := some 2
    smartChunkParagraphs := fun _ => ["ab", "cd"] }

/-- Concrete environment with a configured overlap of 2 characters and chunks
`abc`, `d`, so the second chunk receives a nonempty overlap. -/
def overlapEnv2 : Env :=
  { noFailEnv with
    charsFromPreviousParagraph := some 2
    smartChunkParagraphs := fun _ => ["abc", "d"] }

/-- Concrete search environment that flags every query. -/
def flagAllEnv : SearchEnv where
  flagged := fun _ => true
  semanticSearchFails := fun _ => false
  semanticSearchResults := fun _ => []

/-! Generic list helper lemmas. -/

theorem find?_and_of_imp {α : Type} {p q : α → Bool}
    (h : ∀ a, p a = true → q a = true) :
    ∀ l : List α, l.find? (fun a => p a && q a) = l.find? p := by
  intro l
  induction l with
  | nil => rfl
  | cons a l ih =>
    by_cases hpa : p a = true
    · simp [List.find?_cons, hpa, h a hpa]
    · simp only [Bool.not_eq_true] at hpa
      simp [List.find?_cons, hpa, ih]

/-! Claim theorems and their supporting lemmas. -/

/-- Over any snapshot list, the reconciliation loop removes exactly the snapshot
entries that are dangling and whose delete succeeds, counts every dangling entry in
`deleteCount` and every failed delete in `errorCount`, and leaves `nextId` alone. -/
theorem reconcileGo_spec (e : Env) (files : List TFile) (ds : List Document) :
    ∀ st : Store,
      (reconcileGo e files ds st).1.docs =
        st.docs.filter (fun x => !(ds.any (fun d =>
          d.path == x.path && !(files.any (fun f => f.path == d.path)) &&
          !(e.deleteDocumentFails d.path)))) ∧
      (reconcileGo e files ds st).1.nextId = st.nextId ∧
      (reconcileGo e files ds st).2.1 =
        ⟨0, 0,
         (ds.filter (fun d => !(files.any (fun f => f.path == d.path)) &&
            e.deleteDocumentFails d.path)).length,
         (ds.filter (fun d => !(files.any (fun f => f.path == d.path)))).length⟩ := by
  induction ds with
  | nil =>
    intro st
    refine ⟨?_, rfl, rfl⟩
    simp [reconcileGo]
  | cons d ds ih =>
    intro st
    by_cases hin : files.any (fun f => f.path == d.path) = true
    · have h1 := ih st
      refine ⟨?_, ?_, ?_⟩
      · simp only [reconcileGo, hin, if_true, h1.1]
        apply List.filter_congr
        intro x hx
        simp [hin]
      · simp only [reconcileGo, hin, if_true, h1.2.1]
      · simp only [reconcileGo, hin, if_true, h1.2.2]
        simp [List.filter_cons, hin]
    · simp only [Bool.not_eq_true] at hin
      by_cases hdel : e.deleteDocumentFails d.path = true
      · have h1 := ih st
        refine ⟨?_, ?_, ?_⟩
        · simp only [reconcileGo, hin, hdel, Bool.false_eq_true, if_false, if_true, h1.1]
          apply List.filter_congr
          intro x hx
          simp [hin, hdel]
        · simp only [reconcileGo, hin, hdel, Bool.false_eq_true, if_false, if_true]
          exact h1.2.1
        · simp only [reconcileGo, hin, hdel, Bool.false_eq_true, if_false, if_true, addRes,
            h1.2.2]
          simp [List.filter_cons, hin, hdel]
          omega
      · simp only [Bool.not_eq_true] at hdel
        have h1 := ih (deleteByPath st d.path)
        have hstep : reconcileGo e files (d :: ds) st =
            ((reconcileGo e files ds (deleteByPath st d.path)).1,
             addRes ⟨0, 0, 0, 1⟩ (reconcileGo e files ds (deleteByPath st d.path)).2.1,
             .deleteDoc d.path :: (reconcileGo e files ds (deleteByPath st d.path)).2.2) := by
          simp only [reconcileGo, hin, hdel, Bool.false_eq_true, if_false]
        refine ⟨?_, ?_, ?_⟩
        · rw [hstep]
          dsimp only
          rw [h1.1]
          show ((deleteByPath st d.path).docs.filter _) = _
          rw [show (deleteByPath st d.path).docs =
              st.docs.filter (fun x => x.path != d.path) from rfl]
          rw [List.filter_filter]
          apply List.filter_congr
          intro x hx
          by_cases hxp : x.path = d.path
          · simp [hxp, hin, hdel]
          · have hxp2 : ¬ d.path = x.path := fun h => hxp h.symm
            have hb1 : (d.path == x.path) = false := by simp [hxp2]
            have hb2 : (x.path != d.path) = true := by simp [hxp]
            simp [hb1, hb2]
        · rw [hstep]
          dsimp only
          rw [h1.2.1]
          rfl
        · rw [hstep]
          dsimp only
          rw [h1.2.2]
          simp [addRes, List.filter_cons, hin, hdel]
          omega


/-- A fully successful `embedLoop` run appends exactly one section row per chunk and
issues the embed/insert operations pairwise in chunk order. -/
theorem embedLoop_ok (e : Env) (fpath : String) (docId : Nat)
    (hemb : ∀ j, e.embedFails fpath j = false)
    (hins : ∀ j, e.insertSectionFails fpath j = false) :
    ∀ (pairs : List (String × String)) (i : Nat) (st : Store),
      embedLoop e fpath docId i pairs st =
        ({ st with sections := st.sections ++ loopSections e docId pairs }, true,
         loopTrace docId pairs) := by
  intro pairs
  induction pairs with
  | nil =>
    intro i st
    simp [embedLoop, loopSections, loopTrace]
  | cons p rest ih =>
    intro i st
    obtain ⟨s, input⟩ := p
    simp [embedLoop, hemb i, hins i, loopSections, loopTrace, ih (i + 1)]

/-- `embedLoop` never touches the document table or the id counter. -/
theorem embedLoop_docs (e : Env) (fpath : String) (docId : Nat) :
    ∀ (pairs : List (String × String)) (i : Nat) (st : Store),
      (embedLoop e fpath docId i pairs st).1.docs = st.docs ∧
      (embedLoop e fpath docId i pairs st).1.nextId = st.nextId := by
  intro pairs
  induction pairs with
  | nil => intro i st; exact ⟨rfl, rfl⟩
  | cons p rest ih =>
    intro i st
    obtain ⟨s, input⟩ := p
    by_cases h1 : e.embedFails fpath i = true
    · simp [embedLoop, h1]
    · simp only [Bool.not_eq_true] at h1
      by_cases h2 : e.insertSectionFails fpath i = true
      · simp [embedLoop, h1, h2]
      · simp only [Bool.not_eq_true] at h2
        simp only [embedLoop, h1, h2, Bool.false_eq_true, if_false]
        exact ih (i + 1) _

/-- After an upsert, the row at the upserted path is exactly the payload row, carrying
the returned id and a null checksum. -/
theorem upsertDocument_docAt (st : Store) (p : String) (meta : List (String × String))
    (b : Bool) :
    docAt (upsertDocument st p meta b).1 p =
      some ⟨(upsertDocument st p meta b).2, p, none, b, meta⟩ := by
  cases hfind : st.docs.find? (fun d => d.path == p) with
  | none =>
    simp only [upsertDocument, hfind, docAt]
    rw [List.find?_append, hfind]
    simp
  | some d0 =>
    have hpath := List.find?_some hfind
    have hpeq : d0.path = p := beq_iff_eq.mp hpath
    simp only [upsertDocument, hfind, docAt]
    rw [List.find?_map]
    have hcomp : ((fun d => d.path == p) ∘ (fun d =>
        if d.path == p then { d with checksum := none, isPublic := b, meta := meta }
        else d)) = (fun (d : Document) => d.path == p) := by
      funext d
      by_cases h : (d.path == p) = true
      · simp [Function.comp, h]
      · simp only [Bool.not_eq_true] at h
        simp [Function.comp, h]
    rw [hcomp, hfind]
    simp [hpath, hpeq]

/-- An upsert at path `p` leaves every row at any other path unchanged. -/
theorem upsertDocument_docAt_ne (st : Store) (p q : String)
    (meta : List (String × String)) (b : Bool) (hne : q ≠ p) :
    docAt (upsertDocument st p meta b).1 q = docAt st q := by
  cases hfind : st.docs.find? (fun d => d.path == p) with
  | none =>
    simp only [upsertDocument, hfind, docAt]
    rw [List.find?_append]
    cases hq : st.docs.find? (fun d => d.path == q) with
    | some x => simp
    | none =>
      simp only [Option.none_or]
      have : (p == q) = false := by
        simp only [beq_eq_false_iff_ne, ne_eq]
        exact fun h => hne h.symm
      simp [List.find?, this]
  | some d0 =>
    simp only [upsertDocument, hfind, docAt]
    rw [List.find?_map]
    have hcomp : ((fun d => d.path == q) ∘ (fun d =>
        if d.path == p then { d with checksum := none, isPublic := b, meta := meta }
        else d)) = (fun (d : Document) => d.path == q) := by
      funext d
      by_cases h : (d.path == p) = true
      · simp [Function.comp, h]
      · simp only [Bool.not_eq_true] at h
        simp [Function.comp, h]
    rw [hcomp]
    cases hq : st.docs.find? (fun d => d.path == q) with
    | none => rfl
    | some x =>
      have hxq0 := List.find?_some hq
      have hxq : x.path = q := beq_iff_eq.mp hxq0
      have hxp : (x.path == p) = false := by
        simp only [beq_eq_false_iff_ne, ne_eq, hxq]
        exact hne
      simp [hxp]
      intro h
      exact absurd h (beq_eq_false_iff_ne.mp hxp)

/-- An upsert leaves the section table unchanged. -/
theorem upsertDocument_sections (st : Store) (p : String)
    (meta : List (String × String)) (b : Bool) :
    (upsertDocument st p meta b).1.sections = st.sections := by
  cases hfind : st.docs.find? (fun d => d.path == p) with
  | none => simp [upsertDocument, hfind]
  | some d0 => simp [upsertDocument, hfind]

/-- Positional description of the chunk/input pair list. -/
theorem chunkInputsAux_get? (e : Env) (fpath : String) (fm : List (String × String))
    (allSections : List String) :
    ∀ (l : List String) (k j : Nat),
      (chunkInputsAux e fpath fm allSections k l).get? j =
        (l.get? j).map (fun s =>
          (s, e.createChunkContext s fm fpath (overlapOf e allSections (k + j)))) := by
  intro l
  induction l with
  | nil => intro k j; simp [chunkInputsAux]
  | cons s rest ih =>
    intro k j
    cases j with
    | zero => simp [chunkInputsAux]
    | succ j =>
      simp only [chunkInputsAux, List.get?_cons_succ, ih (k + 1) j]
      have : k + 1 + j = k + (j + 1) := by omega
      rw [this]

/-- The chunk/input pair list projects back to the chunk list. -/
theorem chunkInputsAux_map_fst (e : Env) (fpath : String) (fm : List (String × String))
    (allSections : List String) :
    ∀ (l : List String) (k : Nat),
      (chunkInputsAux e fpath fm allSections k l).map Prod.fst = l := by
  intro l
  induction l with
  | nil => intro k; rfl
  | cons s rest ih =>
    intro k
    simp [chunkInputsAux, ih (k + 1)]

/-- Full characterization of a successful re-index of a file that already has a stored
row with a stale checksum: old sections are deleted first, the row is upserted with a
null checksum, every chunk is embedded and inserted in order, and the checksum is set
last. -/
theorem processFile_reindex_existing (e : Env) (pub : List String) (st : Store)
    (f : TFile) (d : Document)
    (hfetch : e.fetchDocumentFails f.path = false)
    (hdoc : docAt st f.path = some d)
    (hne : ¬ d.checksum = some (e.hash f.content))
    (hdelS : e.deleteSectionsFails f.path = false)
    (hups : e.upsertFails f.path = false)
    (hemb : ∀ i, e.embedFails f.path i = false)
    (hins : ∀ i, e.insertSectionFails f.path i = false)
    (hupd : e.updateChecksumFails f.path = false) :
    processFile e pub st f =
      (let cs := e.hash f.content
       let isPub := isFileInDirectories f.path pub
       let parsed := e.parseMarkdown f.content
       let fm := setMeta parsed.2 "path" f.path
       let st0 : Store :=
         { st with sections := st.sections.filter (fun s => s.document_id != d.id) }
       let up := upsertDocument st0 f.path fm isPub
       let pairs := chunkInputs e f.path fm (e.smartChunkParagraphs parsed.1)
       ({ docs := up.1.docs.map (fun x =>
            if x.id == up.2 then { x with checksum := some cs } else x),
          sections := up.1.sections ++ loopSections e up.2 pairs,
          nextId := up.1.nextId },
        .reindexed,
        .fetchDoc f.path :: .deleteSections d.id :: .upsertDoc f.path none isPub ::
          loopTrace up.2 pairs ++ [.updateChecksum up.2 cs])) := by
  simp only [processFile, hfetch, Bool.false_eq_true, if_false, hdoc, hne, if_false,
    hdelS, reindexCore, hups, hupd]
  rw [embedLoop_ok e f.path _ hemb hins]
  simp

/-- Full characterization of a successful first-time indexing of a file with no stored
row: no section delete is issued, the row is inserted with a null checksum via upsert,
every chunk is embedded and inserted in order, and the checksum is set last. -/
theorem processFile_reindex_new (e : Env) (pub : List String) (st : Store)
    (f : TFile)
    (hfetch : e.fetchDocumentFails f.path = false)
    (hdoc : docAt st f.path = none)
    (hups : e.upsertFails f.path = false)
    (hemb : ∀ i, e.embedFails f.path i = false)
    (hins : ∀ i, e.insertSectionFails f.path i = false)
    (hupd : e.updateChecksumFails f.path = false) :
    processFile e pub st f =
      (let cs := e.hash f.content
       let isPub := isFileInDirectories f.path pub
       let parsed := e.parseMarkdown f.content
       let fm := setMeta parsed.2 "path" f.path
       let up := upsertDocument st f.path fm isPub
       let pairs := chunkInputs e f.path fm (e.smartChunkParagraphs parsed.1)
       ({ docs := up.1.docs.map (fun x =>
            if x.id == up.2 then { x with checksum := some cs } else x),
          sections := up.1.sections ++ loopSections e up.2 pairs,
          nextId := up.1.nextId },
        .reindexed,
        .fetchDoc f.path :: .upsertDoc f.path none isPub ::
          loopTrace up.2 pairs ++ [.updateChecksum up.2 cs])) := by
  simp only [processFile, hfetch, Bool.false_eq_true, if_false, hdoc, reindexCore,
    hups, hupd]
  rw [embedLoop_ok e f.path _ hemb hins]
  simp

/-- Every operation of a successful section loop is an embed or an insert for the
re-indexed document. -/
theorem loopTrace_mem (docId : Nat) :
    ∀ (pairs : List (String × String)), ∀ op ∈ loopTrace docId pairs,
      (∃ s, op = Op.embed s) ∨ (∃ s, op = Op.insertSection docId s) := by
  intro pairs
  induction pairs with
  | nil => intro op hop; cases hop
  | cons pr rest ih =>
    intro op hop
    simp only [loopTrace, List.foldr_cons, List.mem_cons] at hop
    rcases hop with h | h | h
    · exact Or.inl ⟨pr.2, h⟩
    · exact Or.inr ⟨pr.1, h⟩
    · exact ih op h

/-- The inserted section rows all carry the re-indexed document's id. -/
theorem loopSections_filter_self (e : Env) (docId : Nat)
    (pairs : List (String × String)) :
    (loopSections e docId pairs).filter (fun s => s.document_id == docId) =
      loopSections e docId pairs := by
  rw [List.filter_eq_self]
  intro a ha
  rcases List.mem_map.mp ha with ⟨pr, _, rfl⟩
  simp

/-- The inserted section rows persist exactly the raw chunk texts, in order. -/
theorem loopSections_map_content (e : Env) (docId : Nat)
    (pairs : List (String × String)) :
    (loopSections e docId pairs).map DocumentSection.content = pairs.map Prod.fst := by
  simp [loopSections, List.map_map]

/-- `find?` by path commutes with a path-preserving map over the document table. -/
theorem find?_path_map (g : Document → Document) (hg : ∀ d, (g d).path = d.path)
    (l : List Document) (p : String) :
    (l.map g).find? (fun d => d.path == p) = (l.find? (fun d => d.path == p)).map g := by
  rw [List.find?_map]
  have hcomp : ((fun d => d.path == p) ∘ g) = (fun (d : Document) => d.path == p) := by
    funext d
    simp [Function.comp, hg d]
  rw [hcomp]

/-- The id returned by an upsert that found an existing row is that row's id. -/
theorem upsertDocument_id_existing (st : Store) (p : String)
    (meta : List (String × String)) (b : Bool) (d0 : Document)
    (hfind : st.docs.find? (fun d => d.path == p) = some d0) :
    (upsertDocument st p meta b).2 = d0.id := by
  simp [upsertDocument, hfind]

/-- The id returned by an upsert that inserted a fresh row is the fresh id. -/
theorem upsertDocument_id_new (st : Store) (p : String)
    (meta : List (String × String)) (b : Bool)
    (hfind : st.docs.find? (fun d => d.path == p) = none) :
    (upsertDocument st p meta b).2 = st.nextId := by
  simp [upsertDocument, hfind]

/-- Claim C1: for a synced document whose stored checksum differs from the computed
one (or that has no stored row), the sync deletes all of the document's existing
sections before inserting any new section, upserts the document row with a null
checksum, and sets the checksum to the new value only after every new section has been
embedded and persisted: the trace is exactly fetch, (delete-sections), upsert-null,
embed/insert pairs, checksum-update, and afterwards the document's persisted sections
are exactly the new chunks and its row carries the new checksum. -/
theorem sync_reindex_section_replacement (e : Env) (pub : List String) (st : Store)
    (f : TFile)
    (hsec : ∀ s ∈ st.sections, s.document_id < st.nextId)
    (hfetch : e.fetchDocumentFails f.path = false)
    (hstale : ∀ d, docAt st f.path = some d → ¬ d.checksum = some (e.hash f.content))
    (hdelS : e.deleteSectionsFails f.path = false)
    (hups : e.upsertFails f.path = false)
    (hemb : ∀ i, e.embedFails f.path i = false)
    (hins : ∀ i, e.insertSectionFails f.path i = false)
    (hupd : e.updateChecksumFails f.path = false) :
    ∃ docId body,
      (processFile e pub st f).2.1 = .reindexed ∧
      (processFile e pub st f).2.2 =
        .fetchDoc f.path ::
          ((match docAt st f.path with
            | some d => [Op.deleteSections d.id]
            | none => ([] : List Op)) ++
           (Op.upsertDoc f.path none (isFileInDirectories f.path pub) ::
            (body ++ [Op.updateChecksum docId (e.hash f.content)]))) ∧
      (∀ op ∈ body, (∃ s, op = Op.embed s) ∨ (∃ s, op = Op.insertSection docId s)) ∧
      ((processFile e pub st f).1.sections.filter
          (fun s => s.document_id == docId)).map DocumentSection.content =
        e.smartChunkParagraphs (e.parseMarkdown f.content).1 ∧
      ∃ d1, docAt (processFile e pub st f).1 f.path = some d1 ∧ d1.id = docId ∧
        d1.checksum = some (e.hash f.content) := by
  cases hdoc : docAt st f.path with
  | some d =>
    have hne := hstale d hdoc
    have heq := processFile_reindex_existing e pub st f d hfetch hdoc hne hdelS hups
      hemb hins hupd
    have hfind0 : ({ st with sections := st.sections.filter (fun s => s.document_id != d.id) } : Store).docs.find? (fun x => x.path == f.path) = some d := hdoc

    have hout : (processFile e pub st f).2.1 = FileOutcome.reindexed := by rw [heq]; try rfl
    have htrace : (processFile e pub st f).2.2 =
        Op.fetchDoc f.path :: Op.deleteSections d.id :: Op.upsertDoc f.path none (isFileInDirectories f.path pub) ::
          (loopTrace (upsertDocument ({ st with sections := st.sections.filter (fun s => s.document_id != d.id) } : Store) f.path (setMeta (e.parseMarkdown f.content).2 "path" f.path) (isFileInDirectories f.path pub)).2 (chunkInputs e f.path (setMeta (e.parseMarkdown f.content).2 "path" f.path) (e.smartChunkParagraphs (e.parseMarkdown f.content).1)) ++ [Op.updateChecksum (upsertDocument ({ st with sections := st.sections.filter (fun s => s.document_id != d.id) } : Store) f.path (setMeta (e.parseMarkdown f.content).2 "path" f.path) (isFileInDirectories f.path pub)).2 (e.hash f.content)]) := by rw [heq]; try rfl
    have hsecs : (processFile e pub st f).1.sections =
        (upsertDocument ({ st with sections := st.sections.filter (fun s => s.document_id != d.id) } : Store) f.path (setMeta (e.parseMarkdown f.content).2 "path" f.path) (isFileInDirectories f.path pub)).1.sections ++ loopSections e (upsertDocument ({ st with sections := st.sections.filter (fun s => s.document_id != d.id) } : Store) f.path (setMeta (e.parseMarkdown f.content).2 "path" f.path) (isFileInDirectories f.path pub)).2 (chunkInputs e f.path (setMeta (e.parseMarkdown f.content).2 "path" f.path) (e.smartChunkParagraphs (e.parseMarkdown f.content).1)) := by rw [heq]; try rfl
    have hdocs : (processFile e pub st f).1.docs =
        (upsertDocument ({ st with sections := st.sections.filter (fun s => s.document_id != d.id) } : Store) f.path (setMeta (e.parseMarkdown f.content).2 "path" f.path) (isFileInDirectories f.path pub)).1.docs.map (fun x =>
          if x.id == (upsertDocument ({ st with sections := st.sections.filter (fun s => s.document_id != d.id) } : Store) f.path (setMeta (e.parseMarkdown f.content).2 "path" f.path) (isFileInDirectories f.path pub)).2 then { x with checksum := some (e.hash f.content) } else x) := by rw [heq]; try rfl
    have hid : (upsertDocument ({ st with sections := st.sections.filter (fun s => s.document_id != d.id) } : Store) f.path (setMeta (e.parseMarkdown f.content).2 "path" f.path) (isFileInDirectories f.path pub)).2 = d.id := upsertDocument_id_existing ({ st with sections := st.sections.filter (fun s => s.document_id != d.id) } : Store) f.path (setMeta (e.parseMarkdown f.content).2 "path" f.path) (isFileInDirectories f.path pub) d hfind0
    refine ⟨(upsertDocument ({ st with sections := st.sections.filter (fun s => s.document_id != d.id) } : Store) f.path (setMeta (e.parseMarkdown f.content).2 "path" f.path) (isFileInDirectories f.path pub)).2, loopTrace (upsertDocument ({ st with sections := st.sections.filter (fun s => s.document_id != d.id) } : Store) f.path (setMeta (e.parseMarkdown f.content).2 "path" f.path) (isFileInDirectories f.path pub)).2 (chunkInputs e f.path (setMeta (e.parseMarkdown f.content).2 "path" f.path) (e.smartChunkParagraphs (e.parseMarkdown f.content).1)), hout, ?_, loopTrace_mem _ _, ?_, ?_⟩
    · rw [htrace]
      simp only [hdoc]
      simp
    · rw [hsecs, List.filter_append, upsertDocument_sections]
      have hst0secs : ({ st with sections := st.sections.filter (fun s => s.document_id != d.id) } : Store).sections =
          st.sections.filter (fun s => s.document_id != d.id) := rfl
      rw [hst0secs, hid]
      have hzero : (st.sections.filter (fun s => s.document_id != d.id)).filter
          (fun s => s.document_id == d.id) = [] := by
        rw [List.filter_filter]
        have hfalse : forall s, s ∈ st.sections →
            ((s.document_id == d.id) && (s.document_id != d.id)) = false := by
          intro s _
          by_cases h : s.document_id = d.id <;> simp [h]
        rw [List.filter_congr hfalse, List.filter_false]
      rw [hzero]
      rw [loopSections_filter_self, List.nil_append, loopSections_map_content]
      show (chunkInputsAux e f.path (setMeta (e.parseMarkdown f.content).2 "path" f.path) _ 0 _).map Prod.fst = _
      rw [chunkInputsAux_map_fst]
    · refine ⟨⟨(upsertDocument ({ st with sections := st.sections.filter (fun s => s.document_id != d.id) } : Store) f.path (setMeta (e.parseMarkdown f.content).2 "path" f.path) (isFileInDirectories f.path pub)).2, f.path, some (e.hash f.content), (isFileInDirectories f.path pub), (setMeta (e.parseMarkdown f.content).2 "path" f.path)⟩, ?_, rfl, rfl⟩
      show (processFile e pub st f).1.docs.find? (fun x => x.path == f.path) = _
      rw [hdocs]
      rw [find?_path_map (fun x =>
        if x.id == (upsertDocument ({ st with sections := st.sections.filter (fun s => s.document_id != d.id) } : Store) f.path (setMeta (e.parseMarkdown f.content).2 "path" f.path) (isFileInDirectories f.path pub)).2 then { x with checksum := some (e.hash f.content) } else x)
        (fun x => by by_cases h : (x.id == (upsertDocument ({ st with sections := st.sections.filter (fun s => s.document_id != d.id) } : Store) f.path (setMeta (e.parseMarkdown f.content).2 "path" f.path) (isFileInDirectories f.path pub)).2) = true <;> simp [h])]
      rw [show (upsertDocument ({ st with sections := st.sections.filter (fun s => s.document_id != d.id) } : Store) f.path (setMeta (e.parseMarkdown f.content).2 "path" f.path) (isFileInDirectories f.path pub)).1.docs.find? (fun x => x.path == f.path) = some ⟨(upsertDocument ({ st with sections := st.sections.filter (fun s => s.document_id != d.id) } : Store) f.path (setMeta (e.parseMarkdown f.content).2 "path" f.path) (isFileInDirectories f.path pub)).2, f.path, none, (isFileInDirectories f.path pub), (setMeta (e.parseMarkdown f.content).2 "path" f.path)⟩ from upsertDocument_docAt ({ st with sections := st.sections.filter (fun s => s.document_id != d.id) } : Store) f.path (setMeta (e.parseMarkdown f.content).2 "path" f.path) (isFileInDirectories f.path pub)]
      simp

  | none =>
    have heq := processFile_reindex_new e pub st f hfetch hdoc hups hemb hins hupd

    have hout : (processFile e pub st f).2.1 = FileOutcome.reindexed := by rw [heq]; try rfl
    have htrace : (processFile e pub st f).2.2 =
        Op.fetchDoc f.path :: Op.upsertDoc f.path none (isFileInDirectories f.path pub) ::
          (loopTrace (upsertDocument st f.path (setMeta (e.parseMarkdown f.content).2 "path" f.path) (isFileInDirectories f.path pub)).2 (chunkInputs e f.path (setMeta (e.parseMarkdown f.content).2 "path" f.path) (e.smartChunkParagraphs (e.parseMarkdown f.content).1)) ++ [Op.updateChecksum (upsertDocument st f.path (setMeta (e.parseMarkdown f.content).2 "path" f.path) (isFileInDirectories f.path pub)).2 (e.hash f.content)]) := by rw [heq]; try rfl
    have hsecs : (processFile e pub st f).1.sections =
        (upsertDocument st f.path (setMeta (e.parseMarkdown f.content).2 "path" f.path) (isFileInDirectories f.path pub)).1.sections ++ loopSections e (upsertDocument st f.path (setMeta (e.parseMarkdown f.content).2 "path" f.path) (isFileInDirectories f.path pub)).2 (chunkInputs e f.path (setMeta (e.parseMarkdown f.content).2 "path" f.path) (e.smartChunkParagraphs (e.parseMarkdown f.content).1)) := by rw [heq]; try rfl
    have hdocs : (processFile e pub st f).1.docs =
        (upsertDocument st f.path (setMeta (e.parseMarkdown f.content).2 "path" f.path) (isFileInDirectories f.path pub)).1.docs.map (fun x =>
          if x.id == (upsertDocument st f.path (setMeta (e.parseMarkdown f.content).2 "path" f.path) (isFileInDirectories f.path pub)).2 then { x with checksum := some (e.hash f.content) } else x) := by rw [heq]; try rfl
    have hid : (upsertDocument st f.path (setMeta (e.parseMarkdown f.content).2 "path" f.path) (isFileInDirectories f.path pub)).2 = st.nextId := upsertDocument_id_new st f.path (setMeta (e.parseMarkdown f.content).2 "path" f.path) (isFileInDirectories f.path pub) hdoc
    refine ⟨(upsertDocument st f.path (setMeta (e.parseMarkdown f.content).2 "path" f.path) (isFileInDirectories f.path pub)).2, loopTrace (upsertDocument st f.path (setMeta (e.parseMarkdown f.content).2 "path" f.path) (isFileInDirectories f.path pub)).2 (chunkInputs e f.path (setMeta (e.parseMarkdown f.content).2 "path" f.path) (e.smartChunkParagraphs (e.parseMarkdown f.content).1)), hout, ?_, loopTrace_mem _ _, ?_, ?_⟩
    · rw [htrace]
      simp only [hdoc]
      simp
    · rw [hsecs, List.filter_append, upsertDocument_sections]
      rw [hid]
      have hzero : st.sections.filter (fun s => s.document_id == st.nextId) = [] := by
        have hfalse : forall s, s ∈ st.sections →
            (s.document_id == st.nextId) = false := by
          intro s hs
          have := hsec s hs
          simp only [beq_eq_false_iff_ne, ne_eq]
          omega
        rw [List.filter_congr hfalse, List.filter_false]
      rw [hzero]
      rw [loopSections_filter_self, List.nil_append, loopSections_map_content]
      show (chunkInputsAux e f.path (setMeta (e.parseMarkdown f.content).2 "path" f.path) _ 0 _).map Prod.fst = _
      rw [chunkInputsAux_map_fst]
    · refine ⟨⟨(upsertDocument st f.path (setMeta (e.parseMarkdown f.content).2 "path" f.path) (isFileInDirectories f.path pub)).2, f.path, some (e.hash f.content), (isFileInDirectories f.path pub), (setMeta (e.parseMarkdown f.content).2 "path" f.path)⟩, ?_, rfl, rfl⟩
      show (processFile e pub st f).1.docs.find? (fun x => x.path == f.path) = _
      rw [hdocs]
      rw [find?_path_map (fun x =>
        if x.id == (upsertDocument st f.path (setMeta (e.parseMarkdown f.content).2 "path" f.path) (isFileInDirectories f.path pub)).2 then { x with checksum := some (e.hash f.content) } else x)
        (fun x => by by_cases h : (x.id == (upsertDocument st f.path (setMeta (e.parseMarkdown f.content).2 "path" f.path) (isFileInDirectories f.path pub)).2) = true <;> simp [h])]
      rw [show (upsertDocument st f.path (setMeta (e.parseMarkdown f.content).2 "path" f.path) (isFileInDirectories f.path pub)).1.docs.find? (fun x => x.path == f.path) = some ⟨(upsertDocument st f.path (setMeta (e.parseMarkdown f.content).2 "path" f.path) (isFileInDirectories f.path pub)).2, f.path, none, (isFileInDirectories f.path pub), (setMeta (e.parseMarkdown f.content).2 "path" f.path)⟩ from upsertDocument_docAt st f.path (setMeta (e.parseMarkdown f.content).2 "path" f.path) (isFileInDirectories f.path pub)]
      simp

/-- Witness for C1: first-time indexing of one file into the empty store. -/
theorem sync_reindex_section_replacement_witness :
    ∃ docId body,
      (processFile noFailEnv [] emptyStore ⟨"a.md", "hello"⟩).2.1 = .reindexed ∧
      (processFile noFailEnv [] emptyStore ⟨"a.md", "hello"⟩).2.2 =
        .fetchDoc "a.md" ::
          ((match docAt emptyStore "a.md" with
            | some d => [Op.deleteSections d.id]
            | none => ([] : List Op)) ++
           (Op.upsertDoc "a.md" none (isFileInDirectories "a.md" []) ::
            (body ++ [Op.updateChecksum docId (noFailEnv.hash "hello")]))) ∧
      (∀ op ∈ body, (∃ s, op = Op.embed s) ∨ (∃ s, op = Op.insertSection docId s)) ∧
      ((processFile noFailEnv [] emptyStore ⟨"a.md", "hello"⟩).1.sections.filter
          (fun s => s.document_id == docId)).map DocumentSection.content =
        noFailEnv.smartChunkParagraphs (noFailEnv.parseMarkdown "hello").1 ∧
      ∃ d1, docAt (processFile noFailEnv [] emptyStore ⟨"a.md", "hello"⟩).1 "a.md" =
          some d1 ∧ d1.id = docId ∧ d1.checksum = some (noFailEnv.hash "hello") := by
  exact sync_reindex_section_replacement noFailEnv [] emptyStore ⟨"a.md", "hello"⟩
    (fun s hs => absurd hs (List.not_mem_nil s))
    rfl (fun d hd => by cases hd) rfl rfl (fun i => rfl) (fun i => rfl) rfl


/-- Every chunk/input pair of the section loop contributes its embed operation to the
loop trace. -/
theorem loopTrace_mem_embed (docId : Nat) :
    ∀ (pairs : List (String × String)), ∀ pr ∈ pairs,
      Op.embed pr.2 ∈ loopTrace docId pairs := by
  intro pairs
  induction pairs with
  | nil => intro pr hpr; cases hpr
  | cons q rest ih =>
    intro pr hpr
    rcases List.mem_cons.mp hpr with h | h
    · subst h
      exact List.mem_cons_self _ _
    · exact List.mem_cons_of_mem _ (List.mem_cons_of_mem _ (ih pr h))

/-- The overlap computation, written as a single guard: nonempty exactly when the
chunk is not the first, the configured overlap exists and is positive, and the
previous chunk is strictly longer than the overlap. -/
theorem overlapOf_eq (e : Env) (sections : List String) (i : Nat) :
    overlapOf e sections i =
      (match e.charsFromPreviousParagraph with
       | none => ""
       | some n =>
         if 0 < i ∧ 0 < n ∧ n < (sections.getD (i - 1) "").length then
           takeRight (sections.getD (i - 1) "") n
         else "") := by
  unfold overlapOf
  cases e.charsFromPreviousParagraph with
  | none => rfl
  | some n =>
    by_cases hi : 0 < i
    · by_cases hn : 0 < n
      · by_cases hlen : n < (sections.getD (i - 1) "").length
        · simp [hi, hn, hlen]
        · simp [hi, hn, hlen]
      · simp [hi, hn]
    · simp [hi]

/-- The embed operations of a successful re-index are exactly those for the
chunk/input pairs, and the persisted section rows carry exactly the raw chunks. -/
theorem processFile_reindex_parts (e : Env) (pub : List String) (st : Store)
    (f : TFile)
    (hsec : ∀ s ∈ st.sections, s.document_id < st.nextId)
    (hfetch : e.fetchDocumentFails f.path = false)
    (hstale : ∀ d, docAt st f.path = some d → ¬ d.checksum = some (e.hash f.content))
    (hdelS : e.deleteSectionsFails f.path = false)
    (hups : e.upsertFails f.path = false)
    (hemb : ∀ i, e.embedFails f.path i = false)
    (hins : ∀ i, e.insertSectionFails f.path i = false)
    (hupd : e.updateChecksumFails f.path = false) :
    ∃ docId,
      (∀ pr ∈ (chunkInputs e f.path (setMeta (e.parseMarkdown f.content).2 "path" f.path) (e.smartChunkParagraphs (e.parseMarkdown f.content).1)), Op.embed pr.2 ∈ (processFile e pub st f).2.2) ∧
      ((processFile e pub st f).1.sections.filter
          (fun s => s.document_id == docId)).map DocumentSection.content =
        e.smartChunkParagraphs (e.parseMarkdown f.content).1 := by
  cases hdoc : docAt st f.path with
  | some d =>
    have hne := hstale d hdoc
    have heq := processFile_reindex_existing e pub st f d hfetch hdoc hne hdelS hups
      hemb hins hupd
    have hfind0 : ({ st with sections := st.sections.filter (fun s => s.document_id != d.id) } : Store).docs.find? (fun x => x.path == f.path) = some d := hdoc

    have htrace : (processFile e pub st f).2.2 =
        Op.fetchDoc f.path :: Op.deleteSections d.id :: Op.upsertDoc f.path none (isFileInDirectories f.path pub) ::
          (loopTrace (upsertDocument ({ st with sections := st.sections.filter (fun s => s.document_id != d.id) } : Store) f.path (setMeta (e.parseMarkdown f.content).2 "path" f.path) (isFileInDirectories f.path pub)).2 (chunkInputs e f.path (setMeta (e.parseMarkdown f.content).2 "path" f.path) (e.smartChunkParagraphs (e.parseMarkdown f.content).1)) ++ [Op.updateChecksum (upsertDocument ({ st with sections := st.sections.filter (fun s => s.document_id != d.id) } : Store) f.path (setMeta (e.parseMarkdown f.content).2 "path" f.path) (isFileInDirectories f.path pub)).2 (e.hash f.content)]) := by rw [heq]; try rfl
    have hsecs : (processFile e pub st f).1.sections =
        (upsertDocument ({ st with sections := st.sections.filter (fun s => s.document_id != d.id) } : Store) f.path (setMeta (e.parseMarkdown f.content).2 "path" f.path) (isFileInDirectories f.path pub)).1.sections ++ loopSections e (upsertDocument ({ st with sections := st.sections.filter (fun s => s.document_id != d.id) } : Store) f.path (setMeta (e.parseMarkdown f.content).2 "path" f.path) (isFileInDirectories f.path pub)).2 (chunkInputs e f.path (setMeta (e.parseMarkdown f.content).2 "path" f.path) (e.smartChunkParagraphs (e.parseMarkdown f.content).1)) := by rw [heq]; try rfl
    have hid : (upsertDocument ({ st with sections := st.sections.filter (fun s => s.document_id != d.id) } : Store) f.path (setMeta (e.parseMarkdown f.content).2 "path" f.path) (isFileInDirectories f.path pub)).2 = d.id := upsertDocument_id_existing ({ st with sections := st.sections.filter (fun s => s.document_id != d.id) } : Store) f.path (setMeta (e.parseMarkdown f.content).2 "path" f.path) (isFileInDirectories f.path pub) d hfind0
    refine ⟨(upsertDocument ({ st with sections := st.sections.filter (fun s => s.document_id != d.id) } : Store) f.path (setMeta (e.parseMarkdown f.content).2 "path" f.path) (isFileInDirectories f.path pub)).2, ?_, ?_⟩
    · intro pr hpr
      rw [htrace]
      refine List.mem_cons_of_mem _ (List.mem_cons_of_mem _ (List.mem_cons_of_mem _ ?_))
      exact List.mem_append_left _ (loopTrace_mem_embed _ _ pr hpr)
    · rw [hsecs, List.filter_append, upsertDocument_sections]
      have hst0secs : ({ st with sections := st.sections.filter (fun s => s.document_id != d.id) } : Store).sections =
          st.sections.filter (fun s => s.document_id != d.id) := rfl
      rw [hst0secs, hid]
      have hzero : (st.sections.filter (fun s => s.document_id != d.id)).filter
          (fun s => s.document_id == d.id) = [] := by
        rw [List.filter_filter]
        have hfalse : forall s, s ∈ st.sections →
            ((s.document_id == d.id) && (s.document_id != d.id)) = false := by
          intro s _
          by_cases h : s.document_id = d.id <;> simp [h]
        rw [List.filter_congr hfalse, List.filter_false]
      rw [hzero]
      rw [loopSections_filter_self, List.nil_append, loopSections_map_content]
      show (chunkInputsAux e f.path (setMeta (e.parseMarkdown f.content).2 "path" f.path) _ 0 _).map Prod.fst = _
      rw [chunkInputsAux_map_fst]

  | none =>
    have heq := processFile_reindex_new e pub st f hfetch hdoc hups hemb hins hupd

    have htrace : (processFile e pub st f).2.2 =
        Op.fetchDoc f.path :: Op.upsertDoc f.path none (isFileInDirectories f.path pub) ::
          (loopTrace (upsertDocument st f.path (setMeta (e.parseMarkdown f.content).2 "path" f.path) (isFileInDirectories f.path pub)).2 (chunkInputs e f.path (setMeta (e.parseMarkdown f.content).2 "path" f.path) (e.smartChunkParagraphs (e.parseMarkdown f.content).1)) ++ [Op.updateChecksum (upsertDocument st f.path (setMeta (e.parseMarkdown f.content).2 "path" f.path) (isFileInDirectories f.path pub)).2 (e.hash f.content)]) := by rw [heq]; try rfl
    have hsecs : (processFile e pub st f).1.sections =
        (upsertDocument st f.path (setMeta (e.parseMarkdown f.content).2 "path" f.path) (isFileInDirectories f.path pub)).1.sections ++ loopSections e (upsertDocument st f.path (setMeta (e.parseMarkdown f.content).2 "path" f.path) (isFileInDirectories f.path pub)).2 (chunkInputs e f.path (setMeta (e.parseMarkdown f.content).2 "path" f.path) (e.smartChunkParagraphs (e.parseMarkdown f.content).1)) := by rw [heq]; try rfl
    have hid : (upsertDocument st f.path (setMeta (e.parseMarkdown f.content).2 "path" f.path) (isFileInDirectories f.path pub)).2 = st.nextId := upsertDocument_id_new st f.path (setMeta (e.parseMarkdown f.content).2 "path" f.path) (isFileInDirectories f.path pub) hdoc
    refine ⟨(upsertDocument st f.path (setMeta (e.parseMarkdown f.content).2 "path" f.path) (isFileInDirectories f.path pub)).2, ?_, ?_⟩
    · intro pr hpr
      rw [htrace]
      refine List.mem_cons_of_mem _ (List.mem_cons_of_mem _ ?_)
      exact List.mem_append_left _ (loopTrace_mem_embed _ _ pr hpr)
    · rw [hsecs, List.filter_append, upsertDocument_sections]
      rw [hid]
      have hzero : st.sections.filter (fun s => s.document_id == st.nextId) = [] := by
        have hfalse : forall s, s ∈ st.sections →
            (s.document_id == st.nextId) = false := by
          intro s hs
          have := hsec s hs
          simp only [beq_eq_false_iff_ne, ne_eq]
          omega
        rw [List.filter_congr hfalse, List.filter_false]
      rw [hzero]
      rw [loopSections_filter_self, List.nil_append, loopSections_map_content]
      show (chunkInputsAux e f.path (setMeta (e.parseMarkdown f.content).2 "path" f.path) _ 0 _).map Prod.fst = _
      rw [chunkInputsAux_map_fst]



/-- Counterexample to claim C9 as stated: with a configured overlap of 2 and chunks
`ab`, `cd`, the claim predicts the second embedding input to contain the trailing 2
characters of `ab`, but the code sends no overlap at all, because the previous chunk
is not strictly longer than the overlap size. -/
theorem chunk_overlap_boundary_cex :
    (processFile overlapEnv [] emptyStore ⟨"n.md", "x"⟩).2.2.get? 4 =
      some (Op.embed "path: n.md\ncd") ∧
    claimedEmbedInput 2 [("path", "n.md")] "n.md" ["ab", "cd"] 1 = "path: n.md\nabcd" ∧
    "path: n.md\ncd" ≠ "path: n.md\nabcd" := by
  refine ⟨by decide, by decide, by decide⟩

/-- Claim C9 as amended: for every chunk, the embedding input is the front-matter
header (with the path), then the trailing overlap-size characters of the previous
chunk — but only when the chunk is not the first, the overlap size is configured and
positive, AND the previous chunk is strictly longer than the overlap size; otherwise
the overlap part is empty — then the chunk's own text; the persisted section rows
store only the raw chunk texts. -/
theorem chunk_context_composition_amended (e : Env) (pub : List String) (st : Store)
    (f : TFile)
    (hctx : e.createChunkContext = createChunkContext)
    (hsec : ∀ s ∈ st.sections, s.document_id < st.nextId)
    (hfetch : e.fetchDocumentFails f.path = false)
    (hstale : ∀ d, docAt st f.path = some d → ¬ d.checksum = some (e.hash f.content))
    (hdelS : e.deleteSectionsFails f.path = false)
    (hups : e.upsertFails f.path = false)
    (hemb : ∀ i, e.embedFails f.path i = false)
    (hins : ∀ i, e.insertSectionFails f.path i = false)
    (hupd : e.updateChecksumFails f.path = false) :
    (∀ i c, (e.smartChunkParagraphs (e.parseMarkdown f.content).1).get? i = some c →
      Op.embed ("path: " ++ f.path ++ "\n" ++
        (match e.charsFromPreviousParagraph with
         | none => ""
         | some n =>
           if 0 < i ∧ 0 < n ∧ n <
               ((e.smartChunkParagraphs (e.parseMarkdown f.content).1).getD
                 (i - 1) "").length then
             takeRight
               ((e.smartChunkParagraphs (e.parseMarkdown f.content).1).getD (i - 1) "") n
           else "") ++ c) ∈ (processFile e pub st f).2.2) ∧
    (∃ docId, ((processFile e pub st f).1.sections.filter
        (fun s => s.document_id == docId)).map DocumentSection.content =
      e.smartChunkParagraphs (e.parseMarkdown f.content).1) := by
  obtain ⟨docId, hmem, hcontent⟩ := processFile_reindex_parts e pub st f hsec hfetch
    hstale hdelS hups hemb hins hupd
  refine ⟨?_, docId, hcontent⟩
  intro i c hc
  have hpg := chunkInputsAux_get? e f.path (setMeta (e.parseMarkdown f.content).2 "path" f.path)
    (e.smartChunkParagraphs (e.parseMarkdown f.content).1)
    (e.smartChunkParagraphs (e.parseMarkdown f.content).1) 0 i
  rw [hc, Nat.zero_add] at hpg
  simp only [Option.map_some'] at hpg
  have hpr := List.get?_mem hpg
  have hm := hmem _ hpr
  rw [hctx] at hm
  simp only [createChunkContext] at hm
  rw [overlapOf_eq] at hm
  exact hm

/-- Witness for the amended C9: with overlap 2 and chunks `abc`, `d`, the second
embedding input carries the trailing two characters `bc` of the previous chunk. -/
theorem chunk_context_composition_amended_witness :
    Op.embed "path: n.md\nbcd" ∈
      (processFile overlapEnv2 [] emptyStore ⟨"n.md", "x"⟩).2.2 := by
  have h := (chunk_context_composition_amended overlapEnv2 [] emptyStore ⟨"n.md", "x"⟩
    rfl (fun s hs => absurd hs (List.not_mem_nil s)) rfl (fun d hd => by cases hd)
    rfl rfl (fun i => rfl) (fun i => rfl) rfl).1 1 "d" (by decide)
  exact h


/-- If a re-index attempt fails, the document's row either still carries a null
checksum (when the upsert went through) or is whatever it was before the attempt. -/
theorem reindexCore_failed_checksum (e : Env) (st : Store) (f : TFile) (cs : String)
    (isPub : Bool)
    (hfail : (reindexCore e st f cs isPub).2.1 = .failed) :
    ∀ d1, docAt (reindexCore e st f cs isPub).1 f.path = some d1 →
      d1.checksum = none ∨ docAt st f.path = some d1 := by
  by_cases hups : e.upsertFails f.path = true
  · intro d1 hd1
    right
    have heq : (reindexCore e st f cs isPub).1 = st := by
      simp [reindexCore, hups]
    rw [heq] at hd1
    exact hd1
  · simp only [Bool.not_eq_true] at hups
    intro d1 hd1
    left
    have hup := upsertDocument_docAt st f.path (setMeta (e.parseMarkdown f.content).2 "path" f.path) isPub
    by_cases hok : (embedLoop e f.path (upsertDocument st f.path (setMeta (e.parseMarkdown f.content).2 "path" f.path) isPub).2 0
        (chunkInputs e f.path (setMeta (e.parseMarkdown f.content).2 "path" f.path) (e.smartChunkParagraphs (e.parseMarkdown f.content).1))
        (upsertDocument st f.path (setMeta (e.parseMarkdown f.content).2 "path" f.path) isPub).1).2.1 = true
    · by_cases hupd : e.updateChecksumFails f.path = true
      · have heq : (reindexCore e st f cs isPub).1 =
            (embedLoop e f.path (upsertDocument st f.path (setMeta (e.parseMarkdown f.content).2 "path" f.path) isPub).2 0
              (chunkInputs e f.path (setMeta (e.parseMarkdown f.content).2 "path" f.path)
                (e.smartChunkParagraphs (e.parseMarkdown f.content).1))
              (upsertDocument st f.path (setMeta (e.parseMarkdown f.content).2 "path" f.path) isPub).1).1 := by
          simp [reindexCore, hups, hok, hupd]
        rw [heq] at hd1
        have hdocs := (embedLoop_docs e f.path (upsertDocument st f.path (setMeta (e.parseMarkdown f.content).2 "path" f.path) isPub).2
          (chunkInputs e f.path (setMeta (e.parseMarkdown f.content).2 "path" f.path)
            (e.smartChunkParagraphs (e.parseMarkdown f.content).1)) 0
          (upsertDocument st f.path (setMeta (e.parseMarkdown f.content).2 "path" f.path) isPub).1).1
        rw [show docAt (embedLoop e f.path (upsertDocument st f.path (setMeta (e.parseMarkdown f.content).2 "path" f.path) isPub).2 0
            (chunkInputs e f.path (setMeta (e.parseMarkdown f.content).2 "path" f.path)
              (e.smartChunkParagraphs (e.parseMarkdown f.content).1))
            (upsertDocument st f.path (setMeta (e.parseMarkdown f.content).2 "path" f.path) isPub).1).1 f.path =
          docAt (upsertDocument st f.path (setMeta (e.parseMarkdown f.content).2 "path" f.path) isPub).1 f.path from by
            unfold docAt
            rw [hdocs]] at hd1
        rw [hup] at hd1
        cases hd1
        rfl
      · exfalso
        have : (reindexCore e st f cs isPub).2.1 = .reindexed := by
          simp [reindexCore, hups, hok, hupd]
        rw [this] at hfail
        cases hfail
    · simp only [Bool.not_eq_true] at hok
      have heq : (reindexCore e st f cs isPub).1 =
          (embedLoop e f.path (upsertDocument st f.path (setMeta (e.parseMarkdown f.content).2 "path" f.path) isPub).2 0
            (chunkInputs e f.path (setMeta (e.parseMarkdown f.content).2 "path" f.path)
              (e.smartChunkParagraphs (e.parseMarkdown f.content).1))
            (upsertDocument st f.path (setMeta (e.parseMarkdown f.content).2 "path" f.path) isPub).1).1 := by
        simp [reindexCore, hups, hok]
      rw [heq] at hd1
      have hdocs := (embedLoop_docs e f.path (upsertDocument st f.path (setMeta (e.parseMarkdown f.content).2 "path" f.path) isPub).2
        (chunkInputs e f.path (setMeta (e.parseMarkdown f.content).2 "path" f.path)
          (e.smartChunkParagraphs (e.parseMarkdown f.content).1)) 0
        (upsertDocument st f.path (setMeta (e.parseMarkdown f.content).2 "path" f.path) isPub).1).1
      rw [show docAt (embedLoop e f.path (upsertDocument st f.path (setMeta (e.parseMarkdown f.content).2 "path" f.path) isPub).2 0
          (chunkInputs e f.path (setMeta (e.parseMarkdown f.content).2 "path" f.path)
            (e.smartChunkParagraphs (e.parseMarkdown f.content).1))
          (upsertDocument st f.path (setMeta (e.parseMarkdown f.content).2 "path" f.path) isPub).1).1 f.path =
        docAt (upsertDocument st f.path (setMeta (e.parseMarkdown f.content).2 "path" f.path) isPub).1 f.path from by
          unfold docAt
          rw [hdocs]] at hd1
      rw [hup] at hd1
      cases hd1
      rfl

/-- Claim C3: a failure while re-indexing a document yields exactly one extra error
count for it, never sets its stored checksum to the new value (it stays null or stale,
so the document is retried next sync), and the remaining documents are still
processed, from the store the failed attempt left behind. -/
theorem sync_per_document_failure_isolated (e : Env) (pub : List String) (st : Store)
    (f : TFile) (rest : List TFile)
    (hstale : ∀ d, docAt st f.path = some d → ¬ d.checksum = some (e.hash f.content))
    (hfail : (processFile e pub st f).2.1 = .failed) :
    (processFiles e pub st (f :: rest)).2.1 =
      .failed :: (processFiles e pub (processFile e pub st f).1 rest).2.1 ∧
    (sumDeltas (processFiles e pub st (f :: rest)).2.1).errorCount =
      1 + (sumDeltas (processFiles e pub (processFile e pub st f).1 rest).2.1).errorCount ∧
    (∀ d1, docAt (processFile e pub st f).1 f.path = some d1 →
      ¬ d1.checksum = some (e.hash f.content)) := by
  have hcons : (processFiles e pub st (f :: rest)).2.1 =
      (processFile e pub st f).2.1 ::
        (processFiles e pub (processFile e pub st f).1 rest).2.1 := rfl
  refine ⟨by rw [hcons, hfail], by rw [hcons, hfail]; rfl, ?_⟩
  by_cases hfetch : e.fetchDocumentFails f.path = true
  · have heqP : (processFile e pub st f).1 = st := by simp [processFile, hfetch]
    rw [heqP]
    exact hstale
  · simp only [Bool.not_eq_true] at hfetch
    cases hdoc : docAt st f.path with
    | some d =>
      have hne := hstale d hdoc
      by_cases hdelS : e.deleteSectionsFails f.path = true
      · have heqP : (processFile e pub st f).1 = st := by
          simp [processFile, hfetch, hdoc, hne, hdelS]
        rw [heqP]
        exact hstale
      · simp only [Bool.not_eq_true] at hdelS
        have heqP : (processFile e pub st f).1 =
            (reindexCore e ({ st with sections := st.sections.filter (fun s => s.document_id != d.id) } : Store) f
              (e.hash f.content) (isFileInDirectories f.path pub)).1 := by
          simp [processFile, hfetch, hdoc, hne, hdelS]
        have heqO : (processFile e pub st f).2.1 =
            (reindexCore e ({ st with sections := st.sections.filter (fun s => s.document_id != d.id) } : Store) f
              (e.hash f.content) (isFileInDirectories f.path pub)).2.1 := by
          simp [processFile, hfetch, hdoc, hne, hdelS]
        rw [heqO] at hfail
        rw [heqP]
        intro d1 hd1
        rcases reindexCore_failed_checksum e _ f (e.hash f.content)
          (isFileInDirectories f.path pub) hfail d1 hd1 with h | h
        · rw [h]
          intro hcontra
          cases hcontra
        · exact hstale d1 h
    | none =>
      have heqP : (processFile e pub st f).1 =
          (reindexCore e st f (e.hash f.content) (isFileInDirectories f.path pub)).1 := by
        simp [processFile, hfetch, hdoc]
      have heqO : (processFile e pub st f).2.1 =
          (reindexCore e st f (e.hash f.content) (isFileInDirectories f.path pub)).2.1 := by
        simp [processFile, hfetch, hdoc]
      rw [heqO] at hfail
      rw [heqP]
      intro d1 hd1
      rcases reindexCore_failed_checksum e st f (e.hash f.content)
        (isFileInDirectories f.path pub) hfail d1 hd1 with h | h
      · rw [h]
        intro hcontra
        cases hcontra
      · rw [hdoc] at h
        cases h

/-- Witness for C3: an embedding failure on the first file leaves it with a null
checksum and one error, and the second file is still processed. -/
theorem sync_per_document_failure_isolated_witness :
    (processFiles { noFailEnv with embedFails := fun _ _ => true } [] emptyStore
        [⟨"a.md", "x"⟩, ⟨"b.md", "y"⟩]).2.1 =
      .failed :: (processFiles { noFailEnv with embedFails := fun _ _ => true } []
        (processFile { noFailEnv with embedFails := fun _ _ => true } [] emptyStore
          ⟨"a.md", "x"⟩).1 [⟨"b.md", "y"⟩]).2.1 := by
  exact (sync_per_document_failure_isolated
    { noFailEnv with embedFails := fun _ _ => true } [] emptyStore
    ⟨"a.md", "x"⟩ [⟨"b.md", "y"⟩] (fun d hd => by cases hd) (by decide)).1


/-- Every operation issued by the section loop, successful or not, is an embed or an
insert. -/
theorem embedLoop_trace_ops (e : Env) (fpath : String) (docId : Nat) :
    ∀ (pairs : List (String × String)) (i : Nat) (st : Store),
      ∀ op ∈ (embedLoop e fpath docId i pairs st).2.2,
        (∃ s, op = Op.embed s) ∨ (∃ s, op = Op.insertSection docId s) := by
  intro pairs
  induction pairs with
  | nil => intro i st op hop; cases hop
  | cons q rest ih =>
    intro i st op hop
    obtain ⟨s, input⟩ := q
    by_cases h1 : e.embedFails fpath i = true
    · simp only [embedLoop, h1, if_true] at hop
      rcases List.mem_singleton.mp hop with rfl
      exact Or.inl ⟨input, rfl⟩
    · simp only [Bool.not_eq_true] at h1
      by_cases h2 : e.insertSectionFails fpath i = true
      · simp only [embedLoop, h1, h2, Bool.false_eq_true, if_false, if_true] at hop
        rcases List.mem_cons.mp hop with rfl | hop2
        · exact Or.inl ⟨input, rfl⟩
        · rcases List.mem_singleton.mp hop2 with rfl
          exact Or.inr ⟨s, rfl⟩
      · simp only [Bool.not_eq_true] at h2
        simp only [embedLoop, h1, h2, Bool.false_eq_true, if_false] at hop
        rcases List.mem_cons.mp hop with rfl | hop2
        · exact Or.inl ⟨input, rfl⟩
        · rcases List.mem_cons.mp hop2 with rfl | hop3
          · exact Or.inr ⟨s, rfl⟩
          · exact ih (i + 1) _ op hop3

/-- No operation of a re-index of `f` fetches or upserts a different path. -/
theorem reindexCore_trace_paths (e : Env) (st : Store) (f : TFile) (cs : String)
    (isPub : Bool) (p : String) (hne : p ≠ f.path) :
    ∀ op ∈ (reindexCore e st f cs isPub).2.2, opFetchesOrUpserts op p = false := by
  have hfp : (f.path == p) = false := by
    simp only [beq_eq_false_iff_ne, ne_eq]
    exact fun h => hne h.symm
  by_cases hups : e.upsertFails f.path = true
  · simp only [reindexCore, hups, if_true]
    intro op hop
    rcases List.mem_singleton.mp hop with rfl
    simp [opFetchesOrUpserts, hfp]
  · simp only [Bool.not_eq_true] at hups
    have hloop := embedLoop_trace_ops e f.path (upsertDocument st f.path (setMeta (e.parseMarkdown f.content).2 "path" f.path) isPub).2
      (chunkInputs e f.path (setMeta (e.parseMarkdown f.content).2 "path" f.path) (e.smartChunkParagraphs (e.parseMarkdown f.content).1))
      0 (upsertDocument st f.path (setMeta (e.parseMarkdown f.content).2 "path" f.path) isPub).1
    have hcover : ∀ op ∈ (reindexCore e st f cs isPub).2.2,
        op = Op.upsertDoc f.path none isPub ∨ op ∈ (embedLoop e f.path (upsertDocument st f.path (setMeta (e.parseMarkdown f.content).2 "path" f.path) isPub).2 0 (chunkInputs e f.path (setMeta (e.parseMarkdown f.content).2 "path" f.path) (e.smartChunkParagraphs (e.parseMarkdown f.content).1)) (upsertDocument st f.path (setMeta (e.parseMarkdown f.content).2 "path" f.path) isPub).1).2.2 ∨
          op = Op.updateChecksum (upsertDocument st f.path (setMeta (e.parseMarkdown f.content).2 "path" f.path) isPub).2 cs := by
      by_cases hok : (embedLoop e f.path (upsertDocument st f.path (setMeta (e.parseMarkdown f.content).2 "path" f.path) isPub).2 0 (chunkInputs e f.path (setMeta (e.parseMarkdown f.content).2 "path" f.path) (e.smartChunkParagraphs (e.parseMarkdown f.content).1)) (upsertDocument st f.path (setMeta (e.parseMarkdown f.content).2 "path" f.path) isPub).1).2.1 = true
      · by_cases hupd : e.updateChecksumFails f.path = true
        · intro op hop
          simp only [reindexCore, hups, Bool.false_eq_true, if_false, hok, if_true,
            hupd] at hop
          rcases List.mem_cons.mp hop with rfl | hop2
          · exact Or.inl rfl
          · rcases List.mem_append.mp hop2 with h | h
            · exact Or.inr (Or.inl h)
            · rcases List.mem_singleton.mp h with rfl
              exact Or.inr (Or.inr rfl)
        · intro op hop
          simp only [reindexCore, hups, Bool.false_eq_true, if_false, hok, if_true,
            hupd] at hop
          rcases List.mem_cons.mp hop with rfl | hop2
          · exact Or.inl rfl
          · rcases List.mem_append.mp hop2 with h | h
            · exact Or.inr (Or.inl h)
            · rcases List.mem_singleton.mp h with rfl
              exact Or.inr (Or.inr rfl)
      · simp only [Bool.not_eq_true] at hok
        intro op hop
        simp only [reindexCore, hups, Bool.false_eq_true, if_false, hok] at hop
        rcases List.mem_cons.mp hop with rfl | hop2
        · exact Or.inl rfl
        · exact Or.inr (Or.inl hop2)
    intro op hop
    rcases hcover op hop with rfl | h | rfl
    · simp [opFetchesOrUpserts, hfp]
    · rcases hloop op h with ⟨s, rfl⟩ | ⟨s, rfl⟩ <;> rfl
    · rfl

/-- No operation of processing file `f` fetches or upserts a different path. -/
theorem processFile_trace_paths (e : Env) (pub : List String) (st : Store) (f : TFile)
    (p : String) (hne : p ≠ f.path) :
    ∀ op ∈ (processFile e pub st f).2.2, opFetchesOrUpserts op p = false := by
  have hfp : (f.path == p) = false := by
    simp only [beq_eq_false_iff_ne, ne_eq]
    exact fun h => hne h.symm
  by_cases hfetch : e.fetchDocumentFails f.path = true
  · simp only [processFile, hfetch, if_true]
    intro op hop
    rcases List.mem_singleton.mp hop with rfl
    simp [opFetchesOrUpserts, hfp]
  · simp only [Bool.not_eq_true] at hfetch
    cases hdoc : docAt st f.path with
    | some d =>
      by_cases hcs : d.checksum = some (e.hash f.content)
      · by_cases hpub : d.isPublic = isFileInDirectories f.path pub
        · simp only [processFile, hfetch, Bool.false_eq_true, if_false, hdoc, hcs,
            if_true, hpub]
          intro op hop
          rcases List.mem_singleton.mp hop with rfl
          simp [opFetchesOrUpserts, hfp]
        · by_cases hacc : e.updateAccessFails f.path = true
          · simp only [processFile, hfetch, Bool.false_eq_true, if_false, hdoc, hcs,
              if_true, hpub, hacc]
            intro op hop
            rcases List.mem_cons.mp hop with rfl | hop2
            · simp [opFetchesOrUpserts, hfp]
            · rcases List.mem_singleton.mp hop2 with rfl
              rfl
          · simp only [processFile, hfetch, Bool.false_eq_true, if_false, hdoc, hcs,
              if_true, hpub, hacc]
            intro op hop
            rcases List.mem_cons.mp hop with rfl | hop2
            · simp [opFetchesOrUpserts, hfp]
            · rcases List.mem_singleton.mp hop2 with rfl
              rfl
      · by_cases hdelS : e.deleteSectionsFails f.path = true
        · simp only [processFile, hfetch, Bool.false_eq_true, if_false, hdoc, hcs,
            hdelS, if_true]
          intro op hop
          rcases List.mem_cons.mp hop with rfl | hop2
          · simp [opFetchesOrUpserts, hfp]
          · rcases List.mem_singleton.mp hop2 with rfl
            rfl
        · simp only [Bool.not_eq_true] at hdelS
          have hrc := reindexCore_trace_paths e
            ({ st with sections := st.sections.filter (fun s => s.document_id != d.id) } : Store)
            f (e.hash f.content) (isFileInDirectories f.path pub) p hne
          simp only [processFile, hfetch, Bool.false_eq_true, if_false, hdoc, hcs,
            hdelS, if_false]
          intro op hop
          rcases List.mem_cons.mp hop with rfl | hop2
          · simp [opFetchesOrUpserts, hfp]
          · rcases List.mem_cons.mp hop2 with rfl | hop3
            · rfl
            · exact hrc op hop3
    | none =>
      have hrc := reindexCore_trace_paths e st f (e.hash f.content)
        (isFileInDirectories f.path pub) p hne
      simp only [processFile, hfetch, Bool.false_eq_true, if_false, hdoc]
      intro op hop
      rcases List.mem_cons.mp hop with rfl | hop2
      · simp [opFetchesOrUpserts, hfp]
      · exact hrc op hop2

/-- No operation of the per-document pass fetches or upserts a path outside the live
file list. -/
theorem processFiles_trace_paths (e : Env) (pub : List String) (p : String) :
    ∀ (files : List TFile) (st : Store), (∀ g ∈ files, p ≠ g.path) →
      ∀ op ∈ (processFiles e pub st files).2.2, opFetchesOrUpserts op p = false := by
  intro files
  induction files with
  | nil => intro st hne op hop; cases hop
  | cons f fs ih =>
    intro st hne op hop
    have hcons : (processFiles e pub st (f :: fs)).2.2 =
        (processFile e pub st f).2.2 ++
          (processFiles e pub (processFile e pub st f).1 fs).2.2 := rfl
    rw [hcons] at hop
    rcases List.mem_append.mp hop with h | h
    · exact processFile_trace_paths e pub st f p (hne f (List.mem_cons_self f fs)) op h
    · exact ih (processFile e pub st f).1
        (fun g hg => hne g (List.mem_cons_of_mem f hg)) op h

/-- The reconciliation loop only issues deletes. -/
theorem reconcileGo_trace_ops (e : Env) (files : List TFile) :
    ∀ (ds : List Document) (st : Store),
      ∀ op ∈ (reconcileGo e files ds st).2.2, ∃ q, op = Op.deleteDoc q := by
  intro ds
  induction ds with
  | nil => intro st op hop; cases hop
  | cons d rest ih =>
    intro st op hop
    by_cases hin : files.any (fun g => g.path == d.path) = true
    · simp only [reconcileGo, hin, if_true] at hop
      exact ih st op hop
    · simp only [Bool.not_eq_true] at hin
      by_cases hdel : e.deleteDocumentFails d.path = true
      · simp only [reconcileGo, hin, Bool.false_eq_true, if_false, hdel, if_true] at hop
        rcases List.mem_cons.mp hop with rfl | hop2
        · exact ⟨d.path, rfl⟩
        · exact ih st op hop2
      · simp only [Bool.not_eq_true] at hdel
        simp only [reconcileGo, hin, Bool.false_eq_true, if_false, hdel] at hop
        rcases List.mem_cons.mp hop with rfl | hop2
        · exact ⟨d.path, rfl⟩
        · exact ih (deleteByPath st d.path) op hop2

/-- A fully successful re-index leaves the document row carrying the new checksum and
the computed visibility. -/
theorem reindexCore_good (e : Env) (st : Store) (f : TFile) (cs : String)
    (isPub : Bool)
    (hok : (reindexCore e st f cs isPub).2.1 ≠ .failed) :
    docAt (reindexCore e st f cs isPub).1 f.path =
      some ⟨(upsertDocument st f.path (setMeta (e.parseMarkdown f.content).2 "path" f.path) isPub).2, f.path, some cs, isPub, (setMeta (e.parseMarkdown f.content).2 "path" f.path)⟩ := by
  by_cases hups : e.upsertFails f.path = true
  · exact absurd (by simp [reindexCore, hups]) hok
  · simp only [Bool.not_eq_true] at hups
    by_cases hok2 : (embedLoop e f.path (upsertDocument st f.path (setMeta (e.parseMarkdown f.content).2 "path" f.path) isPub).2 0 (chunkInputs e f.path (setMeta (e.parseMarkdown f.content).2 "path" f.path) (e.smartChunkParagraphs (e.parseMarkdown f.content).1)) (upsertDocument st f.path (setMeta (e.parseMarkdown f.content).2 "path" f.path) isPub).1).2.1 = true
    · by_cases hupd : e.updateChecksumFails f.path = true
      · exact absurd (by simp [reindexCore, hups, hok2, hupd]) hok
      · simp only [Bool.not_eq_true] at hupd
        have heq : (reindexCore e st f cs isPub).1 =
            ({ docs := (embedLoop e f.path (upsertDocument st f.path (setMeta (e.parseMarkdown f.content).2 "path" f.path) isPub).2 0 (chunkInputs e f.path (setMeta (e.parseMarkdown f.content).2 "path" f.path) (e.smartChunkParagraphs (e.parseMarkdown f.content).1)) (upsertDocument st f.path (setMeta (e.parseMarkdown f.content).2 "path" f.path) isPub).1).1.docs.map (fun x =>
                if x.id == (upsertDocument st f.path (setMeta (e.parseMarkdown f.content).2 "path" f.path) isPub).2 then { x with checksum := some cs } else x),
               sections := (embedLoop e f.path (upsertDocument st f.path (setMeta (e.parseMarkdown f.content).2 "path" f.path) isPub).2 0 (chunkInputs e f.path (setMeta (e.parseMarkdown f.content).2 "path" f.path) (e.smartChunkParagraphs (e.parseMarkdown f.content).1)) (upsertDocument st f.path (setMeta (e.parseMarkdown f.content).2 "path" f.path) isPub).1).1.sections, nextId := (embedLoop e f.path (upsertDocument st f.path (setMeta (e.parseMarkdown f.content).2 "path" f.path) isPub).2 0 (chunkInputs e f.path (setMeta (e.parseMarkdown f.content).2 "path" f.path) (e.smartChunkParagraphs (e.parseMarkdown f.content).1)) (upsertDocument st f.path (setMeta (e.parseMarkdown f.content).2 "path" f.path) isPub).1).1.nextId } : Store) := by
          simp only [reindexCore, hups, Bool.false_eq_true, if_false, hok2, if_true,
            hupd]
        rw [heq]
        show ((embedLoop e f.path (upsertDocument st f.path (setMeta (e.parseMarkdown f.content).2 "path" f.path) isPub).2 0 (chunkInputs e f.path (setMeta (e.parseMarkdown f.content).2 "path" f.path) (e.smartChunkParagraphs (e.parseMarkdown f.content).1)) (upsertDocument st f.path (setMeta (e.parseMarkdown f.content).2 "path" f.path) isPub).1).1.docs.map (fun x =>
            if x.id == (upsertDocument st f.path (setMeta (e.parseMarkdown f.content).2 "path" f.path) isPub).2 then { x with checksum := some cs } else x)).find?
          (fun x => x.path == f.path) = _
        rw [(embedLoop_docs e f.path (upsertDocument st f.path (setMeta (e.parseMarkdown f.content).2 "path" f.path) isPub).2
          (chunkInputs e f.path (setMeta (e.parseMarkdown f.content).2 "path" f.path)
            (e.smartChunkParagraphs (e.parseMarkdown f.content).1)) 0 (upsertDocument st f.path (setMeta (e.parseMarkdown f.content).2 "path" f.path) isPub).1).1]
        rw [find?_path_map (fun x =>
          if x.id == (upsertDocument st f.path (setMeta (e.parseMarkdown f.content).2 "path" f.path) isPub).2 then { x with checksum := some cs } else x)
          (fun x => by by_cases h : (x.id == (upsertDocument st f.path (setMeta (e.parseMarkdown f.content).2 "path" f.path) isPub).2) = true <;> simp [h])]
        rw [show (upsertDocument st f.path (setMeta (e.parseMarkdown f.content).2 "path" f.path) isPub).1.docs.find? (fun x => x.path == f.path) =
          some ⟨(upsertDocument st f.path (setMeta (e.parseMarkdown f.content).2 "path" f.path) isPub).2, f.path, none, isPub, (setMeta (e.parseMarkdown f.content).2 "path" f.path)⟩ from
          upsertDocument_docAt st f.path (setMeta (e.parseMarkdown f.content).2 "path" f.path) isPub]
        simp
    · exact absurd (by simp [reindexCore, hups, hok2]) hok

/-- A document whose processing did not fail ends up recorded with the checksum of its
current content and the computed visibility. -/
theorem processFile_good (e : Env) (pub : List String) (st : Store) (f : TFile)
    (hok : (processFile e pub st f).2.1 ≠ .failed) :
    ∃ d1, docAt (processFile e pub st f).1 f.path = some d1 ∧
      d1.checksum = some (e.hash f.content) ∧
      d1.isPublic = isFileInDirectories f.path pub := by
  by_cases hfetch : e.fetchDocumentFails f.path = true
  · exact absurd (by simp [processFile, hfetch]) hok
  · simp only [Bool.not_eq_true] at hfetch
    cases hdoc : docAt st f.path with
    | some d =>
      by_cases hcs : d.checksum = some (e.hash f.content)
      · by_cases hpub : d.isPublic = isFileInDirectories f.path pub
        · have heq : (processFile e pub st f).1 = st := by
            simp [processFile, hfetch, hdoc, hcs, hpub]
          rw [heq]
          exact ⟨d, hdoc, hcs, hpub⟩
        · by_cases hacc : e.updateAccessFails f.path = true
          · exact absurd (by simp [processFile, hfetch, hdoc, hcs, hpub, hacc]) hok
          · simp only [Bool.not_eq_true] at hacc
            have heq : (processFile e pub st f).1 =
                ({ st with docs := st.docs.map (fun x =>
                  if x.id == d.id then { x with isPublic := isFileInDirectories f.path pub } else x) } : Store) := by
              simp [processFile, hfetch, hdoc, hcs, hpub, hacc]
            rw [heq]
            refine ⟨{ d with isPublic := isFileInDirectories f.path pub }, ?_, hcs, rfl⟩
            show (st.docs.map (fun x =>
              if x.id == d.id then { x with isPublic := isFileInDirectories f.path pub } else x)).find?
                (fun x => x.path == f.path) = _
            rw [find?_path_map (fun x =>
              if x.id == d.id then { x with isPublic := isFileInDirectories f.path pub } else x)
              (fun x => by by_cases h : (x.id == d.id) = true <;> simp [h])]
            rw [show st.docs.find? (fun x => x.path == f.path) = some d from hdoc]
            simp
      · by_cases hdelS : e.deleteSectionsFails f.path = true
        · exact absurd (by simp [processFile, hfetch, hdoc, hcs, hdelS]) hok
        · simp only [Bool.not_eq_true] at hdelS
          have heqP : (processFile e pub st f).1 =
              (reindexCore e ({ st with sections := st.sections.filter (fun s => s.document_id != d.id) } : Store) f
                (e.hash f.content) (isFileInDirectories f.path pub)).1 := by
            simp [processFile, hfetch, hdoc, hcs, hdelS]
          have heqO : (processFile e pub st f).2.1 =
              (reindexCore e ({ st with sections := st.sections.filter (fun s => s.document_id != d.id) } : Store) f
                (e.hash f.content) (isFileInDirectories f.path pub)).2.1 := by
            simp [processFile, hfetch, hdoc, hcs, hdelS]
          rw [heqO] at hok
          rw [heqP, reindexCore_good e _ f (e.hash f.content)
            (isFileInDirectories f.path pub) hok]
          exact ⟨_, rfl, rfl, rfl⟩
    | none =>
      have heqP : (processFile e pub st f).1 =
          (reindexCore e st f (e.hash f.content) (isFileInDirectories f.path pub)).1 := by
        simp [processFile, hfetch, hdoc]
      have heqO : (processFile e pub st f).2.1 =
          (reindexCore e st f (e.hash f.content) (isFileInDirectories f.path pub)).2.1 := by
        simp [processFile, hfetch, hdoc]
      rw [heqO] at hok
      rw [heqP, reindexCore_good e st f (e.hash f.content)
        (isFileInDirectories f.path pub) hok]
      exact ⟨_, rfl, rfl, rfl⟩


/-- Claim C6: an excluded file is never fetched or upserted anywhere in a sync run
(exclusion is applied before the per-document pass), and a successfully processed file
is recorded public exactly when its normalized path starts with some normalized
public-directory prefix. -/
theorem sync_exclusion_and_visibility (e : Env) (ex pub : List String)
    (vault : List TFile) (st : Store) (f : TFile) :
    (isFileInDirectories f.path ex = true →
      ∀ op ∈ (generateEmbeddings e ex pub vault st).2.2,
        opFetchesOrUpserts op f.path = false) ∧
    (isFileInDirectories f.path pub = true ↔
      ∃ dir ∈ pub, strStartsWith (normalizePath f.path) (normalizePath dir) = true) ∧
    ((processFile e pub st f).2.1 ≠ .failed →
      ∃ d1, docAt (processFile e pub st f).1 f.path = some d1 ∧
        (d1.isPublic = true ↔
          ∃ dir ∈ pub, strStartsWith (normalizePath f.path) (normalizePath dir) = true)) := by
  have hiff : isFileInDirectories f.path pub = true ↔
      ∃ dir ∈ pub, strStartsWith (normalizePath f.path) (normalizePath dir) = true := by
    simp [isFileInDirectories, List.any_eq_true, List.mem_map]
  refine ⟨?_, hiff, ?_⟩
  · intro hex op hop
    have hsplit : (generateEmbeddings e ex pub vault st).2.2 =
        (processFiles e pub st
          (vault.filter (fun g => !(isFileInDirectories g.path ex)))).2.2 ++
        (reconcile e (vault.filter (fun g => !(isFileInDirectories g.path ex)))
          (processFiles e pub st
            (vault.filter (fun g => !(isFileInDirectories g.path ex)))).1).2.2 := rfl
    rw [hsplit] at hop
    rcases List.mem_append.mp hop with h | h
    · refine processFiles_trace_paths e pub f.path _ _ ?_ op h
      intro g hg heqp
      have hgex := (List.mem_filter.mp hg).2
      rw [← heqp] at hgex
      rw [hex] at hgex
      cases hgex
    · by_cases hlist : e.listDocumentsFails = true
      · simp only [reconcile, hlist, if_true] at h
        rcases List.mem_singleton.mp h with rfl
        rfl
      · simp only [Bool.not_eq_true] at hlist
        simp only [reconcile, hlist, Bool.false_eq_true, if_false] at h
        rcases List.mem_cons.mp h with rfl | h2
        · rfl
        · rcases reconcileGo_trace_ops e _ _ _ op h2 with ⟨q, rfl⟩
          rfl
  · intro hok
    obtain ⟨d1, hd1, _, hd1pub⟩ := processFile_good e pub st f hok
    refine ⟨d1, hd1, ?_⟩
    rw [hd1pub]
    exact hiff

/-- Witness for C6: the spec's example — an unindexed document under the public
directory comes out of processing with its row marked public. -/
theorem sync_exclusion_and_visibility_witness :
    ∃ d1, docAt (processFile noFailEnv ["Public/"] emptyStore
        ⟨"Public/note.md", "hello"⟩).1 "Public/note.md" = some d1 ∧
      (d1.isPublic = true ↔
        ∃ dir ∈ ["Public/"],
          strStartsWith (normalizePath "Public/note.md") (normalizePath dir) = true) := by
  exact (sync_exclusion_and_visibility noFailEnv [] ["Public/"] [] emptyStore
    ⟨"Public/note.md", "hello"⟩).2.2 (by decide)


/-- The checksum-match skip branch of the per-document state machine. -/
theorem processFile_skip (e : Env) (pub : List String) (st : Store) (f : TFile)
    (d : Document)
    (hfetch : e.fetchDocumentFails f.path = false)
    (hdoc : docAt st f.path = some d)
    (hcs : d.checksum = some (e.hash f.content))
    (hpub : d.isPublic = isFileInDirectories f.path pub) :
    processFile e pub st f = (st, .skipped, [.fetchDoc f.path]) := by
  simp [processFile, hfetch, hdoc, hcs, hpub]

/-- Well-formedness only constrains the document table and the id counter. -/
theorem WF_of_components (st1 st2 : Store) (hd : st1.docs = st2.docs)
    (hn : st1.nextId = st2.nextId) (hwf : WF st2) : WF st1 := by
  obtain ⟨⟨hp, hi⟩, hlt⟩ := hwf
  refine ⟨⟨?_, ?_⟩, ?_⟩
  · rw [hd]; exact hp
  · rw [hd]; exact hi
  · intro x hx
    rw [hd] at hx
    rw [hn]
    exact hlt x hx

/-- A path- and id-preserving row update preserves well-formedness. -/
theorem WF_map (st : Store) (g : Document → Document)
    (hpath : ∀ d, (g d).path = d.path) (hid : ∀ d, (g d).id = d.id)
    (hwf : WF st) :
    WF ({ st with docs := st.docs.map g } : Store) := by
  obtain ⟨⟨hp, hi⟩, hlt⟩ := hwf
  refine ⟨⟨?_, ?_⟩, ?_⟩
  · show ((st.docs.map g).map Document.path).Nodup
    rw [List.map_map, show (Document.path ∘ g) = Document.path from funext hpath]
    exact hp
  · show ((st.docs.map g).map Document.id).Nodup
    rw [List.map_map, show (Document.id ∘ g) = Document.id from funext hid]
    exact hi
  · intro x hx
    rcases List.mem_map.mp hx with ⟨y, hy, rfl⟩
    rw [hid y]
    exact hlt y hy

/-- An upsert preserves well-formedness. -/
theorem WF_upsert (st : Store) (p : String) (meta : List (String × String)) (b : Bool)
    (hwf : WF st) : WF (upsertDocument st p meta b).1 := by
  cases hfind : st.docs.find? (fun d => d.path == p) with
  | some d0 =>
    have heq : (upsertDocument st p meta b).1 =
        ({ st with docs := st.docs.map (fun d =>
            if d.path == p then { d with checksum := none, isPublic := b, meta := meta }
            else d) } : Store) := by
      simp [upsertDocument, hfind]
    rw [heq]
    refine WF_map st _ ?_ ?_ hwf
    · intro d
      by_cases h : (d.path == p) = true <;> simp [h]
    · intro d
      by_cases h : (d.path == p) = true <;> simp [h]
  | none =>
    have heq : (upsertDocument st p meta b).1 =
        ({ docs := st.docs ++ [⟨st.nextId, p, none, b, meta⟩], sections := st.sections,
           nextId := st.nextId + 1 } : Store) := by
      simp [upsertDocument, hfind]
    rw [heq]
    obtain ⟨⟨hp, hi⟩, hlt⟩ := hwf
    have hnotp : ∀ x ∈ st.docs, ¬ x.path = p := by
      intro x hx hcontra
      have := List.find?_eq_none.mp hfind x hx
      rw [hcontra] at this
      simp at this
    refine ⟨⟨?_, ?_⟩, ?_⟩
    · show ((st.docs ++ [_]).map Document.path).Nodup
      rw [List.map_append]
      rw [List.nodup_append]
      refine ⟨hp, List.nodup_singleton _, ?_⟩
      intro a ha hb
      rcases List.mem_map.mp ha with ⟨x, hx, rfl⟩
      rcases List.mem_singleton.mp hb with h2
      exact hnotp x hx h2
    · show ((st.docs ++ [_]).map Document.id).Nodup
      rw [List.map_append]
      rw [List.nodup_append]
      refine ⟨hi, List.nodup_singleton _, ?_⟩
      intro a ha hb
      rcases List.mem_map.mp ha with ⟨x, hx, rfl⟩
      rcases List.mem_singleton.mp hb with h2
      have := hlt x hx
      have h3 : x.id = st.nextId := h2
      omega
    · intro x hx
      rcases List.mem_append.mp hx with h | h
      · have := hlt x h
        show x.id < st.nextId + 1
        omega
      · rcases List.mem_singleton.mp h with rfl
        show st.nextId < st.nextId + 1
        omega

/-- A successful or failed re-index preserves well-formedness. -/
theorem reindexCore_WF (e : Env) (st : Store) (f : TFile) (cs : String) (isPub : Bool)
    (hwf : WF st) : WF (reindexCore e st f cs isPub).1 := by
  by_cases hups : e.upsertFails f.path = true
  · have heq : (reindexCore e st f cs isPub).1 = st := by simp [reindexCore, hups]
    rw [heq]; exact hwf
  · simp only [Bool.not_eq_true] at hups
    have hwfup := WF_upsert st f.path
      (setMeta (e.parseMarkdown f.content).2 "path" f.path) isPub hwf
    have hEL := embedLoop_docs e f.path
      (upsertDocument st f.path (setMeta (e.parseMarkdown f.content).2 "path" f.path) isPub).2
      (chunkInputs e f.path (setMeta (e.parseMarkdown f.content).2 "path" f.path)
        (e.smartChunkParagraphs (e.parseMarkdown f.content).1)) 0
      (upsertDocument st f.path (setMeta (e.parseMarkdown f.content).2 "path" f.path) isPub).1
    by_cases hok : (embedLoop e f.path
        (upsertDocument st f.path (setMeta (e.parseMarkdown f.content).2 "path" f.path) isPub).2 0
        (chunkInputs e f.path (setMeta (e.parseMarkdown f.content).2 "path" f.path)
          (e.smartChunkParagraphs (e.parseMarkdown f.content).1))
        (upsertDocument st f.path (setMeta (e.parseMarkdown f.content).2 "path" f.path) isPub).1).2.1 = true
    · by_cases hupd : e.updateChecksumFails f.path = true
      · have heq : (reindexCore e st f cs isPub).1 =
            (embedLoop e f.path
              (upsertDocument st f.path (setMeta (e.parseMarkdown f.content).2 "path" f.path) isPub).2 0
              (chunkInputs e f.path (setMeta (e.parseMarkdown f.content).2 "path" f.path)
                (e.smartChunkParagraphs (e.parseMarkdown f.content).1))
              (upsertDocument st f.path (setMeta (e.parseMarkdown f.content).2 "path" f.path) isPub).1).1 := by
          simp [reindexCore, hups, hok, hupd]
        rw [heq]
        exact WF_of_components _ _ hEL.1 hEL.2 hwfup
      · simp only [Bool.not_eq_true] at hupd
        have heq : (reindexCore e st f cs isPub).1 =
            ({ docs := (embedLoop e f.path
                (upsertDocument st f.path (setMeta (e.parseMarkdown f.content).2 "path" f.path) isPub).2 0
                (chunkInputs e f.path (setMeta (e.parseMarkdown f.content).2 "path" f.path)
                  (e.smartChunkParagraphs (e.parseMarkdown f.content).1))
                (upsertDocument st f.path (setMeta (e.parseMarkdown f.content).2 "path" f.path) isPub).1).1.docs.map
                (fun x => if x.id == (upsertDocument st f.path (setMeta (e.parseMarkdown f.content).2 "path" f.path) isPub).2 then { x with checksum := some cs } else x),
               sections := (embedLoop e f.path
                (upsertDocument st f.path (setMeta (e.parseMarkdown f.content).2 "path" f.path) isPub).2 0
                (chunkInputs e f.path (setMeta (e.parseMarkdown f.content).2 "path" f.path)
                  (e.smartChunkParagraphs (e.parseMarkdown f.content).1))
                (upsertDocument st f.path (setMeta (e.parseMarkdown f.content).2 "path" f.path) isPub).1).1.sections,
               nextId := (embedLoop e f.path
                (upsertDocument st f.path (setMeta (e.parseMarkdown f.content).2 "path" f.path) isPub).2 0
                (chunkInputs e f.path (setMeta (e.parseMarkdown f.content).2 "path" f.path)
                  (e.smartChunkParagraphs (e.parseMarkdown f.content).1))
                (upsertDocument st f.path (setMeta (e.parseMarkdown f.content).2 "path" f.path) isPub).1).1.nextId } : Store) := by
          simp only [reindexCore, hups, Bool.false_eq_true, if_false, hok, if_true, hupd]
        rw [heq]
        have hwfE : WF (embedLoop e f.path
            (upsertDocument st f.path (setMeta (e.parseMarkdown f.content).2 "path" f.path) isPub).2 0
            (chunkInputs e f.path (setMeta (e.parseMarkdown f.content).2 "path" f.path)
              (e.smartChunkParagraphs (e.parseMarkdown f.content).1))
            (upsertDocument st f.path (setMeta (e.parseMarkdown f.content).2 "path" f.path) isPub).1).1 :=
          WF_of_components _ _ hEL.1 hEL.2 hwfup
        have := WF_map _ (fun x =>
          if x.id == (upsertDocument st f.path (setMeta (e.parseMarkdown f.content).2 "path" f.path) isPub).2 then { x with checksum := some cs } else x)
          (fun x => by by_cases h : (x.id == (upsertDocument st f.path (setMeta (e.parseMarkdown f.content).2 "path" f.path) isPub).2) = true <;> simp [h])
          (fun x => by by_cases h : (x.id == (upsertDocument st f.path (setMeta (e.parseMarkdown f.content).2 "path" f.path) isPub).2) = true <;> simp [h])
          hwfE
        exact WF_of_components _ _ rfl rfl this
    · simp only [Bool.not_eq_true] at hok
      have heq : (reindexCore e st f cs isPub).1 =
          (embedLoop e f.path
            (upsertDocument st f.path (setMeta (e.parseMarkdown f.content).2 "path" f.path) isPub).2 0
            (chunkInputs e f.path (setMeta (e.parseMarkdown f.content).2 "path" f.path)
              (e.smartChunkParagraphs (e.parseMarkdown f.content).1))
            (upsertDocument st f.path (setMeta (e.parseMarkdown f.content).2 "path" f.path) isPub).1).1 := by
        simp [reindexCore, hups, hok]
      rw [heq]
      exact WF_of_components _ _ hEL.1 hEL.2 hwfup


/-- Any sync step preserves well-formedness of the store. -/
theorem processFile_WF (e : Env) (pub : List String) (st : Store) (f : TFile)
    (hwf : WF st) : WF (processFile e pub st f).1 := by
  by_cases hfetch : e.fetchDocumentFails f.path = true
  · have heq : (processFile e pub st f).1 = st := by simp [processFile, hfetch]
    rw [heq]; exact hwf
  · simp only [Bool.not_eq_true] at hfetch
    cases hdoc : docAt st f.path with
    | some d =>
      by_cases hcs : d.checksum = some (e.hash f.content)
      · by_cases hpub : d.isPublic = isFileInDirectories f.path pub
        · have heq : (processFile e pub st f).1 = st := by
            simp [processFile, hfetch, hdoc, hcs, hpub]
          rw [heq]; exact hwf
        · by_cases hacc : e.updateAccessFails f.path = true
          · have heq : (processFile e pub st f).1 = st := by
              simp [processFile, hfetch, hdoc, hcs, hpub, hacc]
            rw [heq]; exact hwf
          · simp only [Bool.not_eq_true] at hacc
            have heq : (processFile e pub st f).1 =
                ({ st with docs := st.docs.map (fun x =>
                  if x.id == d.id then { x with isPublic := isFileInDirectories f.path pub } else x) } : Store) := by
              simp [processFile, hfetch, hdoc, hcs, hpub, hacc]
            rw [heq]
            exact WF_map st _
              (fun x => by by_cases h : (x.id == d.id) = true <;> simp [h])
              (fun x => by by_cases h : (x.id == d.id) = true <;> simp [h]) hwf
      · by_cases hdelS : e.deleteSectionsFails f.path = true
        · have heq : (processFile e pub st f).1 = st := by
            simp [processFile, hfetch, hdoc, hcs, hdelS]
          rw [heq]; exact hwf
        · simp only [Bool.not_eq_true] at hdelS
          have heqP : (processFile e pub st f).1 =
              (reindexCore e ({ st with sections := st.sections.filter (fun s => s.document_id != d.id) } : Store) f
                (e.hash f.content) (isFileInDirectories f.path pub)).1 := by
            simp [processFile, hfetch, hdoc, hcs, hdelS]
          rw [heqP]
          refine reindexCore_WF e _ f _ _ ?_
          exact WF_of_components _ st rfl rfl hwf
    | none =>
      have heqP : (processFile e pub st f).1 =
          (reindexCore e st f (e.hash f.content) (isFileInDirectories f.path pub)).1 := by
        simp [processFile, hfetch, hdoc]
      rw [heqP]
      exact reindexCore_WF e st f _ _ hwf

/-- A by-id row update touching only the row of a known document leaves lookups at
other paths unchanged, provided ids are unique. -/
theorem find?_map_by_id (l : List Document) (hids : (l.map Document.id).Nodup)
    (d : Document) (hd : d ∈ l) (g : Document → Document)
    (hgpath : ∀ x, (g x).path = x.path)
    (honly : ∀ x, ¬ x.id = d.id → g x = x) (q : String) (hq : q ≠ d.path) :
    (l.map g).find? (fun x => x.path == q) = l.find? (fun x => x.path == q) := by
  rw [find?_path_map g hgpath]
  cases hfind : l.find? (fun x => x.path == q) with
  | none => rfl
  | some x =>
    have hxmem := List.mem_of_find?_eq_some hfind
    have hxq0 := List.find?_some hfind
    have hxq : x.path = q := beq_iff_eq.mp hxq0
    have hxd : ¬ x.id = d.id := by
      intro hcontra
      have hxeq : x = d := List.inj_on_of_nodup_map hids hxmem hd hcontra
      rw [hxeq] at hxq
      exact hq hxq.symm
    rw [Option.map_some', honly x hxd]

/-- A re-index of `f` leaves the row at any other path unchanged. -/
theorem reindexCore_frame (e : Env) (st : Store) (f : TFile) (cs : String)
    (isPub : Bool) (hwf : WF st) (q : String) (hq : q ≠ f.path) :
    docAt (reindexCore e st f cs isPub).1 q = docAt st q := by
  by_cases hups : e.upsertFails f.path = true
  · have heq : (reindexCore e st f cs isPub).1 = st := by simp [reindexCore, hups]
    rw [heq]
  · simp only [Bool.not_eq_true] at hups
    have hwfup := WF_upsert st f.path (setMeta (e.parseMarkdown f.content).2 "path" f.path) isPub hwf
    have hEL := embedLoop_docs e f.path (upsertDocument st f.path (setMeta (e.parseMarkdown f.content).2 "path" f.path) isPub).2
      (chunkInputs e f.path (setMeta (e.parseMarkdown f.content).2 "path" f.path) (e.smartChunkParagraphs (e.parseMarkdown f.content).1))
      0 (upsertDocument st f.path (setMeta (e.parseMarkdown f.content).2 "path" f.path) isPub).1
    have hupne : docAt (upsertDocument st f.path (setMeta (e.parseMarkdown f.content).2 "path" f.path) isPub).1 q = docAt st q :=
      upsertDocument_docAt_ne st f.path q (setMeta (e.parseMarkdown f.content).2 "path" f.path) isPub hq
    have hELq : docAt (embedLoop e f.path (upsertDocument st f.path (setMeta (e.parseMarkdown f.content).2 "path" f.path) isPub).2 0 (chunkInputs e f.path (setMeta (e.parseMarkdown f.content).2 "path" f.path) (e.smartChunkParagraphs (e.parseMarkdown f.content).1)) (upsertDocument st f.path (setMeta (e.parseMarkdown f.content).2 "path" f.path) isPub).1).1 q = docAt st q := by
      unfold docAt
      rw [hEL.1]
      exact hupne
    by_cases hok : (embedLoop e f.path (upsertDocument st f.path (setMeta (e.parseMarkdown f.content).2 "path" f.path) isPub).2 0 (chunkInputs e f.path (setMeta (e.parseMarkdown f.content).2 "path" f.path) (e.smartChunkParagraphs (e.parseMarkdown f.content).1)) (upsertDocument st f.path (setMeta (e.parseMarkdown f.content).2 "path" f.path) isPub).1).2.1 = true
    · by_cases hupd : e.updateChecksumFails f.path = true
      · have heq : (reindexCore e st f cs isPub).1 = (embedLoop e f.path (upsertDocument st f.path (setMeta (e.parseMarkdown f.content).2 "path" f.path) isPub).2 0 (chunkInputs e f.path (setMeta (e.parseMarkdown f.content).2 "path" f.path) (e.smartChunkParagraphs (e.parseMarkdown f.content).1)) (upsertDocument st f.path (setMeta (e.parseMarkdown f.content).2 "path" f.path) isPub).1).1 := by
          simp [reindexCore, hups, hok, hupd]
        rw [heq]
        exact hELq
      · simp only [Bool.not_eq_true] at hupd
        have heq : (reindexCore e st f cs isPub).1 =
            ({ docs := (embedLoop e f.path (upsertDocument st f.path (setMeta (e.parseMarkdown f.content).2 "path" f.path) isPub).2 0 (chunkInputs e f.path (setMeta (e.parseMarkdown f.content).2 "path" f.path) (e.smartChunkParagraphs (e.parseMarkdown f.content).1)) (upsertDocument st f.path (setMeta (e.parseMarkdown f.content).2 "path" f.path) isPub).1).1.docs.map (fun x =>
                if x.id == (upsertDocument st f.path (setMeta (e.parseMarkdown f.content).2 "path" f.path) isPub).2 then { x with checksum := some cs } else x),
               sections := (embedLoop e f.path (upsertDocument st f.path (setMeta (e.parseMarkdown f.content).2 "path" f.path) isPub).2 0 (chunkInputs e f.path (setMeta (e.parseMarkdown f.content).2 "path" f.path) (e.smartChunkParagraphs (e.parseMarkdown f.content).1)) (upsertDocument st f.path (setMeta (e.parseMarkdown f.content).2 "path" f.path) isPub).1).1.sections, nextId := (embedLoop e f.path (upsertDocument st f.path (setMeta (e.parseMarkdown f.content).2 "path" f.path) isPub).2 0 (chunkInputs e f.path (setMeta (e.parseMarkdown f.content).2 "path" f.path) (e.smartChunkParagraphs (e.parseMarkdown f.content).1)) (upsertDocument st f.path (setMeta (e.parseMarkdown f.content).2 "path" f.path) isPub).1).1.nextId } : Store) := by
          simp only [reindexCore, hups, Bool.false_eq_true, if_false, hok, if_true, hupd]
        rw [heq]
        show ((embedLoop e f.path (upsertDocument st f.path (setMeta (e.parseMarkdown f.content).2 "path" f.path) isPub).2 0 (chunkInputs e f.path (setMeta (e.parseMarkdown f.content).2 "path" f.path) (e.smartChunkParagraphs (e.parseMarkdown f.content).1)) (upsertDocument st f.path (setMeta (e.parseMarkdown f.content).2 "path" f.path) isPub).1).1.docs.map (fun x =>
            if x.id == (upsertDocument st f.path (setMeta (e.parseMarkdown f.content).2 "path" f.path) isPub).2 then { x with checksum := some cs } else x)).find?
          (fun x => x.path == q) = docAt st q
        rw [hEL.1]
        have hpayload : (⟨(upsertDocument st f.path (setMeta (e.parseMarkdown f.content).2 "path" f.path) isPub).2, f.path, none, isPub, (setMeta (e.parseMarkdown f.content).2 "path" f.path)⟩ : Document) ∈ (upsertDocument st f.path (setMeta (e.parseMarkdown f.content).2 "path" f.path) isPub).1.docs :=
          List.mem_of_find?_eq_some (upsertDocument_docAt st f.path (setMeta (e.parseMarkdown f.content).2 "path" f.path) isPub)
        rw [find?_map_by_id (upsertDocument st f.path (setMeta (e.parseMarkdown f.content).2 "path" f.path) isPub).1.docs hwfup.1.2 ⟨(upsertDocument st f.path (setMeta (e.parseMarkdown f.content).2 "path" f.path) isPub).2, f.path, none, isPub, (setMeta (e.parseMarkdown f.content).2 "path" f.path)⟩
          hpayload _
          (fun x => by by_cases h : (x.id == (upsertDocument st f.path (setMeta (e.parseMarkdown f.content).2 "path" f.path) isPub).2) = true <;> simp [h])
          (fun x hx => by
            have hxid : (x.id == (upsertDocument st f.path (setMeta (e.parseMarkdown f.content).2 "path" f.path) isPub).2) = false := by
              simp only [beq_eq_false_iff_ne, ne_eq]
              exact hx
            simp [hxid]) q hq]
        exact hupne
    · simp only [Bool.not_eq_true] at hok
      have heq : (reindexCore e st f cs isPub).1 = (embedLoop e f.path (upsertDocument st f.path (setMeta (e.parseMarkdown f.content).2 "path" f.path) isPub).2 0 (chunkInputs e f.path (setMeta (e.parseMarkdown f.content).2 "path" f.path) (e.smartChunkParagraphs (e.parseMarkdown f.content).1)) (upsertDocument st f.path (setMeta (e.parseMarkdown f.content).2 "path" f.path) isPub).1).1 := by
        simp [reindexCore, hups, hok]
      rw [heq]
      exact hELq

/-- Processing one file leaves the row at any other path unchanged. -/
theorem processFile_frame (e : Env) (pub : List String) (st : Store) (f : TFile)
    (hwf : WF st) (q : String) (hq : q ≠ f.path) :
    docAt (processFile e pub st f).1 q = docAt st q := by
  by_cases hfetch : e.fetchDocumentFails f.path = true
  · have heq : (processFile e pub st f).1 = st := by simp [processFile, hfetch]
    rw [heq]
  · simp only [Bool.not_eq_true] at hfetch
    cases hdoc : docAt st f.path with
    | some d =>
      have hdoc2 : st.docs.find? (fun x => x.path == f.path) = some d := hdoc
      have hdmem : d ∈ st.docs := List.mem_of_find?_eq_some hdoc2
      have hdpath0 := List.find?_some hdoc2
      have hdpath : d.path = f.path := beq_iff_eq.mp hdpath0
      by_cases hcs : d.checksum = some (e.hash f.content)
      · by_cases hpub : d.isPublic = isFileInDirectories f.path pub
        · have heq : (processFile e pub st f).1 = st := by
            simp [processFile, hfetch, hdoc, hcs, hpub]
          rw [heq]
        · by_cases hacc : e.updateAccessFails f.path = true
          · have heq : (processFile e pub st f).1 = st := by
              simp [processFile, hfetch, hdoc, hcs, hpub, hacc]
            rw [heq]
          · simp only [Bool.not_eq_true] at hacc
            have heq : (processFile e pub st f).1 =
                ({ st with docs := st.docs.map (fun x =>
                  if x.id == d.id then { x with isPublic := isFileInDirectories f.path pub } else x) } : Store) := by
              simp [processFile, hfetch, hdoc, hcs, hpub, hacc]
            rw [heq]
            show (st.docs.map (fun x =>
              if x.id == d.id then { x with isPublic := isFileInDirectories f.path pub } else x)).find?
                (fun x => x.path == q) = docAt st q
            rw [find?_map_by_id st.docs hwf.1.2 d hdmem _
              (fun x => by by_cases h : (x.id == d.id) = true <;> simp [h])
              (fun x hx => by
                have hxid : (x.id == d.id) = false := by
                  simp only [beq_eq_false_iff_ne, ne_eq]
                  exact hx
                simp [hxid]) q (by rw [hdpath]; exact hq)]
            rfl
      · by_cases hdelS : e.deleteSectionsFails f.path = true
        · have heq : (processFile e pub st f).1 = st := by
            simp [processFile, hfetch, hdoc, hcs, hdelS]
          rw [heq]
        · simp only [Bool.not_eq_true] at hdelS
          have heqP : (processFile e pub st f).1 =
              (reindexCore e ({ st with sections := st.sections.filter (fun s => s.document_id != d.id) } : Store) f
                (e.hash f.content) (isFileInDirectories f.path pub)).1 := by
            simp [processFile, hfetch, hdoc, hcs, hdelS]
          rw [heqP]
          have := reindexCore_frame e
            ({ st with sections := st.sections.filter (fun s => s.document_id != d.id) } : Store)
            f (e.hash f.content) (isFileInDirectories f.path pub)
            (WF_of_components _ st rfl rfl hwf) q hq
          rw [this]
          rfl
    | none =>
      have heqP : (processFile e pub st f).1 =
          (reindexCore e st f (e.hash f.content) (isFileInDirectories f.path pub)).1 := by
        simp [processFile, hfetch, hdoc]
      rw [heqP]
      exact reindexCore_frame e st f _ _ hwf q hq


/-- The per-document pass preserves well-formedness and leaves rows at paths outside
the processed files unchanged. -/
theorem processFiles_WF_frame (e : Env) (pub : List String) :
    ∀ (files : List TFile) (st : Store), WF st →
      WF (processFiles e pub st files).1 ∧
      ∀ q, (∀ g ∈ files, q ≠ g.path) →
        docAt (processFiles e pub st files).1 q = docAt st q := by
  intro files
  induction files with
  | nil => intro st hwf; exact ⟨hwf, fun q _ => rfl⟩
  | cons f fs ih =>
    intro st hwf
    have hwf1 := processFile_WF e pub st f hwf
    have hrec := ih (processFile e pub st f).1 hwf1
    have hcons1 : (processFiles e pub st (f :: fs)).1 =
        (processFiles e pub (processFile e pub st f).1 fs).1 := rfl
    refine ⟨by rw [hcons1]; exact hrec.1, ?_⟩
    intro q hq
    rw [hcons1, hrec.2 q (fun g hg => hq g (List.mem_cons_of_mem f hg))]
    exact processFile_frame e pub st f hwf q (hq f (List.mem_cons_self f fs))

/-- After an error-free per-document pass over files with distinct paths, every file
is recorded with the checksum of its content and the computed visibility. -/
theorem processFiles_goods (e : Env) (pub : List String) :
    ∀ (files : List TFile) (st : Store), WF st →
      (files.map TFile.path).Nodup →
      FileOutcome.failed ∉ (processFiles e pub st files).2.1 →
      ∀ f ∈ files, ∃ d1,
        docAt (processFiles e pub st files).1 f.path = some d1 ∧
        d1.checksum = some (e.hash f.content) ∧
        d1.isPublic = isFileInDirectories f.path pub := by
  intro files
  induction files with
  | nil => intro st _ _ _ f hf; cases hf
  | cons f fs ih =>
    intro st hwf hnodup hok g hg
    have hcons : (processFiles e pub st (f :: fs)).2.1 =
        (processFile e pub st f).2.1 ::
          (processFiles e pub (processFile e pub st f).1 fs).2.1 := rfl
    rw [hcons] at hok
    have hok1 : (processFile e pub st f).2.1 ≠ .failed := by
      intro hcontra
      exact hok (hcontra ▸ List.mem_cons_self _ _)
    have hok2 : FileOutcome.failed ∉
        (processFiles e pub (processFile e pub st f).1 fs).2.1 := by
      intro hcontra
      exact hok (List.mem_cons_of_mem _ hcontra)
    have hwf1 := processFile_WF e pub st f hwf
    have hnodup2 := (List.nodup_cons.mp hnodup).2
    have hfnotin := (List.nodup_cons.mp hnodup).1
    have hcons1 : (processFiles e pub st (f :: fs)).1 =
        (processFiles e pub (processFile e pub st f).1 fs).1 := rfl
    rcases List.mem_cons.mp hg with rfl | hg2
    · obtain ⟨d1, hd1, hd1cs, hd1pub⟩ := processFile_good e pub st g hok1
      refine ⟨d1, ?_, hd1cs, hd1pub⟩
      rw [hcons1]
      rw [(processFiles_WF_frame e pub fs (processFile e pub st g).1 hwf1).2 g.path ?_]
      · exact hd1
      · intro h hh hcontra
        exact hfnotin (hcontra ▸ List.mem_map_of_mem TFile.path hh)
    · obtain ⟨d1, hd1, hd1cs, hd1pub⟩ :=
        ih (processFile e pub st f).1 hwf1 hnodup2 hok2 g hg2
      exact ⟨d1, by rw [hcons1]; exact hd1, hd1cs, hd1pub⟩

/-- An error-free pass implies no per-file fetch ever failed. -/
theorem processFiles_fetch_ok (e : Env) (pub : List String) :
    ∀ (files : List TFile) (st : Store),
      FileOutcome.failed ∉ (processFiles e pub st files).2.1 →
      ∀ f ∈ files, e.fetchDocumentFails f.path = false := by
  intro files
  induction files with
  | nil => intro st _ f hf; cases hf
  | cons f fs ih =>
    intro st hok g hg
    have hcons : (processFiles e pub st (f :: fs)).2.1 =
        (processFile e pub st f).2.1 ::
          (processFiles e pub (processFile e pub st f).1 fs).2.1 := rfl
    rw [hcons] at hok
    rcases List.mem_cons.mp hg with rfl | hg2
    · by_cases hflag : e.fetchDocumentFails g.path = true
      · exfalso
        have : (processFile e pub st g).2.1 = .failed := by simp [processFile, hflag]
        exact hok (this ▸ List.mem_cons_self _ _)
      · simpa using hflag
    · exact ih (processFile e pub st f).1
        (fun hcontra => hok (List.mem_cons_of_mem _ hcontra)) g hg2

/-- When every file is already recorded up to date and no fetch fails, the pass skips
every file and leaves the store untouched. -/
theorem processFiles_all_skip (e : Env) (pub : List String) :
    ∀ (files : List TFile) (st : Store),
      (∀ f ∈ files, ∃ d1, docAt st f.path = some d1 ∧
        d1.checksum = some (e.hash f.content) ∧
        d1.isPublic = isFileInDirectories f.path pub) →
      (∀ f ∈ files, e.fetchDocumentFails f.path = false) →
      (processFiles e pub st files).1 = st ∧
      (processFiles e pub st files).2.1 = files.map (fun _ => FileOutcome.skipped) := by
  intro files
  induction files with
  | nil => intro st _ _; exact ⟨rfl, rfl⟩
  | cons f fs ih =>
    intro st hgood hfetch
    obtain ⟨d1, hd1, hd1cs, hd1pub⟩ := hgood f (List.mem_cons_self f fs)
    have hstep := processFile_skip e pub st f d1
      (hfetch f (List.mem_cons_self f fs)) hd1 hd1cs hd1pub
    have hcons1 : (processFiles e pub st (f :: fs)).1 =
        (processFiles e pub (processFile e pub st f).1 fs).1 := rfl
    have hcons2 : (processFiles e pub st (f :: fs)).2.1 =
        (processFile e pub st f).2.1 ::
          (processFiles e pub (processFile e pub st f).1 fs).2.1 := rfl
    have hst1 : (processFile e pub st f).1 = st := by rw [hstep]
    have hout1 : (processFile e pub st f).2.1 = .skipped := by rw [hstep]
    have hrec := ih st (fun g hg => hgood g (List.mem_cons_of_mem f hg))
      (fun g hg => hfetch g (List.mem_cons_of_mem f hg))
    constructor
    · rw [hcons1, hst1, hrec.1]
    · rw [hcons2, hst1, hout1, hrec.2]
      rfl

/-- The error counter of the summed per-file deltas is zero exactly when no file
failed. -/
theorem sumDeltas_error_zero :
    ∀ os : List FileOutcome,
      ((sumDeltas os).errorCount = 0 ↔ FileOutcome.failed ∉ os) := by
  intro os
  induction os with
  | nil => simp [sumDeltas]
  | cons o os ih =>
    have hcons : sumDeltas (o :: os) = addRes (outcomeDelta o) (sumDeltas os) := rfl
    rw [hcons]
    cases o <;> simp [addRes, outcomeDelta, ih, List.mem_cons]

/-- An all-skip pass contributes no updates and no errors. -/
theorem sumDeltas_all_skipped (files : List TFile) :
    (sumDeltas (files.map (fun _ => FileOutcome.skipped))).updatedCount = 0 ∧
    (sumDeltas (files.map (fun _ => FileOutcome.skipped))).errorCount = 0 := by
  induction files with
  | nil => exact ⟨rfl, rfl⟩
  | cons f fs ih =>
    have hcons : sumDeltas ((f :: fs).map (fun _ => FileOutcome.skipped)) =
        addRes ⟨1, 0, 0, 0⟩ (sumDeltas (fs.map (fun _ => FileOutcome.skipped))) := rfl
    rw [hcons]
    constructor
    · show 0 + (sumDeltas (fs.map (fun _ => FileOutcome.skipped))).updatedCount = 0
      rw [Nat.zero_add]
      exact ih.1
    · show 0 + (sumDeltas (fs.map (fun _ => FileOutcome.skipped))).errorCount = 0
      rw [Nat.zero_add]
      exact ih.2

/-- Lookups at a path every matching row of which is kept are unaffected by the
filter. -/
theorem find?_filter_of_keep {α : Type} (keep : α → Bool) (p : α → Bool)
    (h : ∀ a, p a = true → keep a = true) :
    ∀ l : List α, (l.filter keep).find? p = l.find? p := by
  intro l
  induction l with
  | nil => rfl
  | cons a l ih =>
    by_cases hk : keep a = true
    · rw [List.filter_cons_of_pos hk]
      by_cases hpa : p a = true
      · rw [List.find?_cons_of_pos _ hpa, List.find?_cons_of_pos _ hpa]
      · have hpa2 : ¬ p a := by simp [hpa]
        rw [List.find?_cons_of_neg _ hpa2, List.find?_cons_of_neg _ hpa2, ih]
    · have hpa : p a = false := by
        cases hpq : p a with
        | false => rfl
        | true => exact absurd (h a hpq) hk
      have hk2 : ¬ keep a = true := hk
      rw [List.filter_cons_of_neg hk2]
      have hpa2 : ¬ p a := by simp [hpa]
      rw [List.find?_cons_of_neg _ hpa2, ih]

/-- Filtering the document table preserves well-formedness. -/
theorem WF_of_filter_eq (st1 st : Store) (keep : Document → Bool)
    (hd : st1.docs = st.docs.filter keep) (hn : st1.nextId = st.nextId)
    (hwf : WF st) : WF st1 := by
  obtain ⟨⟨hp, hi⟩, hlt⟩ := hwf
  refine ⟨⟨?_, ?_⟩, ?_⟩
  · rw [hd]
    exact ((List.filter_sublist st.docs).map Document.path).nodup hp
  · rw [hd]
    exact ((List.filter_sublist st.docs).map Document.id).nodup hi
  · intro x hx
    rw [hd] at hx
    rw [hn]
    exact hlt x (List.mem_of_mem_filter hx)

/-- An error-free reconciliation keeps exactly the live documents. -/
theorem reconcile_noerr (e : Env) (files : List TFile) (st : Store)
    (hlist : e.listDocumentsFails = false)
    (herr : (reconcile e files st).2.1.errorCount = 0) :
    (reconcile e files st).1.docs =
      st.docs.filter (fun x => files.any (fun g => g.path == x.path)) ∧
    (reconcile e files st).1.nextId = st.nextId := by
  have hspec := reconcileGo_spec e files st.docs st
  have hre : reconcile e files st =
      ((reconcileGo e files st.docs st).1, (reconcileGo e files st.docs st).2.1,
        .listDocs :: (reconcileGo e files st.docs st).2.2) := by
    simp [reconcile, hlist]
  have herr2 : (st.docs.filter (fun d =>
      !(files.any (fun g => g.path == d.path)) && e.deleteDocumentFails d.path)).length
        = 0 := by
    have h1 : (reconcile e files st).2.1.errorCount =
        (reconcileGo e files st.docs st).2.1.errorCount := by rw [hre]
    rw [h1, hspec.2.2] at herr
    exact herr
  have hfails : ∀ x ∈ st.docs,
      ¬ ((!(files.any (fun g => g.path == x.path)) && e.deleteDocumentFails x.path)
        = true) := by
    have := List.length_eq_zero.mp herr2
    intro x hx hcontra
    have hmem : x ∈ st.docs.filter (fun d =>
        !(files.any (fun g => g.path == d.path)) && e.deleteDocumentFails d.path) :=
      List.mem_filter.mpr ⟨hx, hcontra⟩
    rw [this] at hmem
    cases hmem
  constructor
  · have h1 : (reconcile e files st).1.docs =
        (reconcileGo e files st.docs st).1.docs := by rw [hre]
    rw [h1, hspec.1]
    apply List.filter_congr
    intro x hx
    by_cases hin : files.any (fun g => g.path == x.path) = true
    · rw [hin]
      have hany : (st.docs.any fun d =>
          (d.path == x.path && !(files.any fun g => g.path == d.path)) &&
            !(e.deleteDocumentFails d.path)) = false := by
        rw [List.any_eq_false]
        intro d hd hcontra
        rcases Bool.and_eq_true_iff.mp hcontra with ⟨hc1, _⟩
        rcases Bool.and_eq_true_iff.mp hc1 with ⟨hc0, hc2⟩
        have hdx : d.path = x.path := beq_iff_eq.mp hc0
        rw [hdx, hin] at hc2
        simp at hc2
      rw [hany]
      rfl
    · simp only [Bool.not_eq_true] at hin
      rw [hin]
      have hxfail : e.deleteDocumentFails x.path = false := by
        have := hfails x hx
        cases hfx : e.deleteDocumentFails x.path with
        | false => rfl
        | true =>
          exfalso
          exact this (by simp [hin, hfx])
      have hany : (st.docs.any fun d =>
          (d.path == x.path && !(files.any fun g => g.path == d.path)) &&
            !(e.deleteDocumentFails d.path)) = true := by
        rw [List.any_eq_true]
        exact ⟨x, hx, by simp [hin, hxfail]⟩
      rw [hany]
      rfl
  · have h1 : (reconcile e files st).1.nextId =
        (reconcileGo e files st.docs st).1.nextId := by rw [hre]
    rw [h1, hspec.2.1]

/-- When every snapshot entry is live the reconciliation loop does nothing. -/
theorem reconcileGo_all_live (e : Env) (files : List TFile) :
    ∀ (ds : List Document) (st : Store),
      (∀ d ∈ ds, files.any (fun g => g.path == d.path) = true) →
      reconcileGo e files ds st = (st, ⟨0, 0, 0, 0⟩, []) := by
  intro ds
  induction ds with
  | nil => intro st _; rfl
  | cons d rest ih =>
    intro st hall
    have hd := hall d (List.mem_cons_self d rest)
    simp only [reconcileGo, hd, if_true]
    exact ih st (fun x hx => hall x (List.mem_cons_of_mem d hx))

/-- When every stored document is live the reconciliation pass is a no-op with zero
counters. -/
theorem reconcile_all_live (e : Env) (files : List TFile) (st : Store)
    (hlist : e.listDocumentsFails = false)
    (hall : ∀ d ∈ st.docs, files.any (fun g => g.path == d.path) = true) :
    reconcile e files st = (st, ⟨0, 0, 0, 0⟩, [.listDocs]) := by
  simp [reconcile, hlist, reconcileGo_all_live e files st.docs st hall]


/-- Claim C7: after a sync pass that completed with no errors, a second pass over the
same vault and configuration performs no updates and reports no errors — every
document takes the skip branch and the reconciliation pass finds nothing dangling. -/
theorem sync_idempotent_second_pass (e : Env) (ex pub : List String)
    (vault : List TFile) (st : Store)
    (hwf : WF st) (hnodup : (vault.map TFile.path).Nodup)
    (h1 : (generateEmbeddings e ex pub vault st).1.errorCount = 0) :
    (generateEmbeddings e ex pub vault
      (generateEmbeddings e ex pub vault st).2.1).1.updatedCount = 0 ∧
    (generateEmbeddings e ex pub vault
      (generateEmbeddings e ex pub vault st).2.1).1.errorCount = 0 := by
  have hnodupF : ((vault.filter (fun g => !(isFileInDirectories g.path ex))).map TFile.path).Nodup :=
    List.Nodup.sublist (List.Sublist.map TFile.path (List.filter_sublist vault)) hnodup
  have hsplit1 : (generateEmbeddings e ex pub vault st).1 =
      addRes (sumDeltas (processFiles e pub st (vault.filter (fun g => !(isFileInDirectories g.path ex)))).2.1) (reconcile e (vault.filter (fun g => !(isFileInDirectories g.path ex))) (processFiles e pub st (vault.filter (fun g => !(isFileInDirectories g.path ex)))).1).2.1 := rfl
  have haddE : (addRes (sumDeltas (processFiles e pub st (vault.filter (fun g => !(isFileInDirectories g.path ex)))).2.1) (reconcile e (vault.filter (fun g => !(isFileInDirectories g.path ex))) (processFiles e pub st (vault.filter (fun g => !(isFileInDirectories g.path ex)))).1).2.1).errorCount =
      (sumDeltas (processFiles e pub st (vault.filter (fun g => !(isFileInDirectories g.path ex)))).2.1).errorCount + (reconcile e (vault.filter (fun g => !(isFileInDirectories g.path ex))) (processFiles e pub st (vault.filter (fun g => !(isFileInDirectories g.path ex)))).1).2.1.errorCount := rfl
  rw [hsplit1, haddE] at h1
  have hE1 : (sumDeltas (processFiles e pub st (vault.filter (fun g => !(isFileInDirectories g.path ex)))).2.1).errorCount = 0 := by omega
  have hE2 : (reconcile e (vault.filter (fun g => !(isFileInDirectories g.path ex))) (processFiles e pub st (vault.filter (fun g => !(isFileInDirectories g.path ex)))).1).2.1.errorCount = 0 := by omega
  have hnofail : FileOutcome.failed ∉ (processFiles e pub st (vault.filter (fun g => !(isFileInDirectories g.path ex)))).2.1 := (sumDeltas_error_zero _).mp hE1
  have hlist : e.listDocumentsFails = false := by
    cases hl : e.listDocumentsFails with
    | false => rfl
    | true =>
      exfalso
      have hRfail : (reconcile e (vault.filter (fun g => !(isFileInDirectories g.path ex))) (processFiles e pub st (vault.filter (fun g => !(isFileInDirectories g.path ex)))).1).2.1 = ⟨0, 0, 1, 0⟩ := by simp [reconcile, hl]
      rw [hRfail] at hE2
      cases hE2
  have hwfM := (processFiles_WF_frame e pub (vault.filter (fun g => !(isFileInDirectories g.path ex))) st hwf).1
  have hgoodsM := processFiles_goods e pub (vault.filter (fun g => !(isFileInDirectories g.path ex))) st hwf hnodupF hnofail
  have hrec := reconcile_noerr e (vault.filter (fun g => !(isFileInDirectories g.path ex))) (processFiles e pub st (vault.filter (fun g => !(isFileInDirectories g.path ex)))).1 hlist hE2
  have hfetchok := processFiles_fetch_ok e pub (vault.filter (fun g => !(isFileInDirectories g.path ex))) st hnofail
  have hgoods2 : ∀ f ∈ (vault.filter (fun g => !(isFileInDirectories g.path ex))), ∃ d1, docAt (reconcile e (vault.filter (fun g => !(isFileInDirectories g.path ex))) (processFiles e pub st (vault.filter (fun g => !(isFileInDirectories g.path ex)))).1).1 f.path = some d1 ∧
      d1.checksum = some (e.hash f.content) ∧
      d1.isPublic = isFileInDirectories f.path pub := by
    intro f hf
    obtain ⟨d1, hd1, hcs, hpub⟩ := hgoodsM f hf
    refine ⟨d1, ?_, hcs, hpub⟩
    show (reconcile e (vault.filter (fun g => !(isFileInDirectories g.path ex))) (processFiles e pub st (vault.filter (fun g => !(isFileInDirectories g.path ex)))).1).1.docs.find? (fun x => x.path == f.path) = some d1
    have hkeep : ∀ x : Document, ((fun x : Document => x.path == f.path) x) = true →
        ((fun x : Document => (vault.filter (fun g => !(isFileInDirectories g.path ex))).any (fun g => g.path == x.path)) x) = true := by
      intro x hx
      rw [List.any_eq_true]
      refine ⟨f, hf, ?_⟩
      have hxe : x.path = f.path := beq_iff_eq.mp hx
      rw [hxe]
      exact beq_self_eq_true _
    rw [hrec.1, find?_filter_of_keep _ _ hkeep (processFiles e pub st (vault.filter (fun g => !(isFileInDirectories g.path ex)))).1.docs]
    exact hd1
  have hwf2 : WF (reconcile e (vault.filter (fun g => !(isFileInDirectories g.path ex))) (processFiles e pub st (vault.filter (fun g => !(isFileInDirectories g.path ex)))).1).1 := WF_of_filter_eq (reconcile e (vault.filter (fun g => !(isFileInDirectories g.path ex))) (processFiles e pub st (vault.filter (fun g => !(isFileInDirectories g.path ex)))).1).1 (processFiles e pub st (vault.filter (fun g => !(isFileInDirectories g.path ex)))).1 _ hrec.1 hrec.2 hwfM
  have hall2 : ∀ d ∈ (reconcile e (vault.filter (fun g => !(isFileInDirectories g.path ex))) (processFiles e pub st (vault.filter (fun g => !(isFileInDirectories g.path ex)))).1).1.docs, (vault.filter (fun g => !(isFileInDirectories g.path ex))).any (fun g => g.path == d.path) = true := by
    intro d hd
    rw [hrec.1] at hd
    exact (List.mem_filter.mp hd).2
  have hskip := processFiles_all_skip e pub (vault.filter (fun g => !(isFileInDirectories g.path ex))) (reconcile e (vault.filter (fun g => !(isFileInDirectories g.path ex))) (processFiles e pub st (vault.filter (fun g => !(isFileInDirectories g.path ex)))).1).1 hgoods2 hfetchok
  have hstore1 : (generateEmbeddings e ex pub vault st).2.1 = (reconcile e (vault.filter (fun g => !(isFileInDirectories g.path ex))) (processFiles e pub st (vault.filter (fun g => !(isFileInDirectories g.path ex)))).1).1 := rfl
  have hR2 : (reconcile e (vault.filter (fun g => !(isFileInDirectories g.path ex))) (processFiles e pub (reconcile e (vault.filter (fun g => !(isFileInDirectories g.path ex))) (processFiles e pub st (vault.filter (fun g => !(isFileInDirectories g.path ex)))).1).1 (vault.filter (fun g => !(isFileInDirectories g.path ex)))).1).2.1 = ⟨0, 0, 0, 0⟩ := by
    rw [hskip.1]
    rw [reconcile_all_live e (vault.filter (fun g => !(isFileInDirectories g.path ex))) (reconcile e (vault.filter (fun g => !(isFileInDirectories g.path ex))) (processFiles e pub st (vault.filter (fun g => !(isFileInDirectories g.path ex)))).1).1 hlist hall2]
  have hu1 := (sumDeltas_all_skipped (vault.filter (fun g => !(isFileInDirectories g.path ex)))).1
  have he1 := (sumDeltas_all_skipped (vault.filter (fun g => !(isFileInDirectories g.path ex)))).2
  have hfinalU : (generateEmbeddings e ex pub vault (reconcile e (vault.filter (fun g => !(isFileInDirectories g.path ex))) (processFiles e pub st (vault.filter (fun g => !(isFileInDirectories g.path ex)))).1).1).1.updatedCount =
      (sumDeltas (processFiles e pub (reconcile e (vault.filter (fun g => !(isFileInDirectories g.path ex))) (processFiles e pub st (vault.filter (fun g => !(isFileInDirectories g.path ex)))).1).1 (vault.filter (fun g => !(isFileInDirectories g.path ex)))).2.1).updatedCount + (reconcile e (vault.filter (fun g => !(isFileInDirectories g.path ex))) (processFiles e pub (reconcile e (vault.filter (fun g => !(isFileInDirectories g.path ex))) (processFiles e pub st (vault.filter (fun g => !(isFileInDirectories g.path ex)))).1).1 (vault.filter (fun g => !(isFileInDirectories g.path ex)))).1).2.1.updatedCount := rfl
  have hfinalE : (generateEmbeddings e ex pub vault (reconcile e (vault.filter (fun g => !(isFileInDirectories g.path ex))) (processFiles e pub st (vault.filter (fun g => !(isFileInDirectories g.path ex)))).1).1).1.errorCount =
      (sumDeltas (processFiles e pub (reconcile e (vault.filter (fun g => !(isFileInDirectories g.path ex))) (processFiles e pub st (vault.filter (fun g => !(isFileInDirectories g.path ex)))).1).1 (vault.filter (fun g => !(isFileInDirectories g.path ex)))).2.1).errorCount + (reconcile e (vault.filter (fun g => !(isFileInDirectories g.path ex))) (processFiles e pub (reconcile e (vault.filter (fun g => !(isFileInDirectories g.path ex))) (processFiles e pub st (vault.filter (fun g => !(isFileInDirectories g.path ex)))).1).1 (vault.filter (fun g => !(isFileInDirectories g.path ex)))).1).2.1.errorCount := rfl
  have h00u : ((⟨0, 0, 0, 0⟩ : EmbeddingResult)).updatedCount = 0 := rfl
  have h00e : ((⟨0, 0, 0, 0⟩ : EmbeddingResult)).errorCount = 0 := rfl
  constructor
  · rw [hstore1, hfinalU, hskip.2, hR2]
    omega
  · rw [hstore1, hfinalE, hskip.2, hR2]
    omega

/-- Witness for C7: one file synced into the empty store; the second pass reports no
updates and no errors. -/
theorem sync_idempotent_second_pass_witness :
    (generateEmbeddings noFailEnv [] [] [⟨"a.md", "hello"⟩]
      (generateEmbeddings noFailEnv [] [] [⟨"a.md", "hello"⟩] emptyStore).2.1).1.updatedCount = 0 ∧
    (generateEmbeddings noFailEnv [] [] [⟨"a.md", "hello"⟩]
      (generateEmbeddings noFailEnv [] [] [⟨"a.md", "hello"⟩] emptyStore).2.1).1.errorCount = 0 := by
  exact sync_idempotent_second_pass noFailEnv [] [] [⟨"a.md", "hello"⟩] emptyStore
    (by constructor; constructor; decide; decide; intro d hd; cases hd) (by decide)
    (by decide)

/-- Claim C8: the checksum is the hash of the raw markdown text, taken before front
matter extraction, so changing the front matter alone (body unchanged) changes the
checksum (for an injective hash) and sends the document down the full re-index path. -/
theorem checksum_covers_front_matter (e : Env) (pub : List String) (st : Store)
    (p m1 m2 : String) (d : Document)
    (hinj : Function.Injective e.hash)
    (hneq : m1 ≠ m2)
    (hbody : (e.parseMarkdown m1).1 = (e.parseMarkdown m2).1)
    (hdoc : docAt st p = some d)
    (hcs : d.checksum = some (e.hash m1))
    (hfetch : e.fetchDocumentFails p = false)
    (hdelS : e.deleteSectionsFails p = false)
    (hups : e.upsertFails p = false)
    (hemb : ∀ i, e.embedFails p i = false)
    (hins : ∀ i, e.insertSectionFails p i = false)
    (hupd : e.updateChecksumFails p = false) :
    e.hash m1 ≠ e.hash m2 ∧
    (processFile e pub st ⟨p, m2⟩).2.1 = .reindexed := by
  have hhash : e.hash m1 ≠ e.hash m2 := fun h => hneq (hinj h)
  refine ⟨hhash, ?_⟩
  have hne : ¬ d.checksum = some (e.hash (⟨p, m2⟩ : TFile).content) := by
    rw [hcs]
    intro h
    exact hhash (Option.some.injEq _ _ ▸ h)
  rw [processFile_reindex_existing e pub st ⟨p, m2⟩ d hfetch hdoc hne hdelS hups
    hemb hins hupd]

/-- Witness for C8: two markdown texts differing only in their front matter. -/
theorem checksum_covers_front_matter_witness :
    (Function.Injective (fun s : String => s) →
      "---\ntag: a\n---\nbody" ≠ "---\ntag: b\n---\nbody" →
      True) ∧
    (processFile noFailEnv []
      ⟨[⟨0, "n.md", some "---\ntag: a\n---\nbody", false, []⟩], [], 1⟩
      ⟨"n.md", "---\ntag: b\n---\nbody"⟩).2.1 = .reindexed := by
  refine ⟨fun _ _ => trivial, ?_⟩
  exact (checksum_covers_front_matter noFailEnv []
    ⟨[⟨0, "n.md", some "---\ntag: a\n---\nbody", false, []⟩], [], 1⟩
    "n.md" "---\ntag: a\n---\nbody" "---\ntag: b\n---\nbody"
    ⟨0, "n.md", some "---\ntag: a\n---\nbody", false, []⟩
    (fun a b h => h) (by decide) (by decide) rfl rfl rfl rfl rfl
    (fun i => rfl) (fun i => rfl) rfl).2

/-- Claim C5: if the moderation check flags a query, the search clears the result list
and raises the distinct "Flagged content" error, and neither the embedding provider,
the record-store similarity query, nor the chat provider is invoked for that query. -/
theorem search_moderation_gate (e : SearchEnv) (st : ModalState) (query : String)
    (minLen : Nat) (force : Bool)
    (hnew : jsTrim query ≠ jsTrim st.searchQuery)
    (hlen : minLen < query.length ∨ force = true)
    (hflag : e.flagged (jsTrim query) = true) :
    getSuggestionsInternal e st query minLen force =
      ({ results := [], searchQuery := query }, [.moderation (jsTrim query)], true) ∧
    ∀ c ∈ (getSuggestionsInternal e st query minLen force).2.1,
      (∀ s, c ≠ .embedQuery s) ∧ (∀ s, c ≠ .storeQuery s) ∧ (∀ s, c ≠ .chat s) := by
  have hmain : getSuggestionsInternal e st query minLen force =
      ({ results := [], searchQuery := query }, [.moderation (jsTrim query)], true) := by
    simp [getSuggestionsInternal, hnew, hlen, hflag]
  refine ⟨hmain, ?_⟩
  rw [hmain]
  intro c hc
  simp only [List.mem_singleton] at hc
  subst hc
  refine ⟨?_, ?_, ?_⟩ <;> intro s h <;> cases h

/-- Witness for C5 at a concrete flagged query. -/
theorem search_moderation_gate_witness :
    getSuggestionsInternal flagAllEnv ⟨[], ""⟩ "bad query" 0 false =
      (⟨[], "bad query"⟩, [.moderation (jsTrim "bad query")], true) := by
  exact (search_moderation_gate flagAllEnv ⟨[], ""⟩ "bad query" 0 false
    (by decide) (Or.inl (by decide)) rfl).1

/-- Claim C2: when the stored checksum equals the computed one, the document is either
skipped with no store write (matching visibility, success counted) or only its public
flag is updated (success and update counted); no Section is touched. -/
theorem sync_checksum_match_frame (e : Env) (pub : List String) (st : Store)
    (f : TFile) (d : Document)
    (hfetch : e.fetchDocumentFails f.path = false)
    (hdoc : docAt st f.path = some d)
    (hcs : d.checksum = some (e.hash f.content)) :
    (d.isPublic = isFileInDirectories f.path pub →
      processFile e pub st f = (st, .skipped, [.fetchDoc f.path])) ∧
    (d.isPublic ≠ isFileInDirectories f.path pub →
      e.updateAccessFails f.path = false →
      processFile e pub st f =
        ({ st with docs := st.docs.map (fun x =>
            if x.id == d.id then { x with isPublic := isFileInDirectories f.path pub }
            else x) },
         .accessUpdated,
         [.fetchDoc f.path, .updateAccess d.id (isFileInDirectories f.path pub)])) ∧
    outcomeDelta .skipped = ⟨1, 0, 0, 0⟩ ∧
    outcomeDelta .accessUpdated = ⟨1, 1, 0, 0⟩ := by
  refine ⟨?_, ?_, rfl, rfl⟩
  · intro hpub
    simp [processFile, hfetch, hdoc, hcs, hpub]
  · intro hpub hupd
    simp [processFile, hfetch, hdoc, hcs, hpub, hupd]

/-- Witness for C2: both branches at concrete stores. -/
theorem sync_checksum_match_frame_witness :
    processFile noFailEnv ["Public"] ⟨[⟨5, "a.md", some "x", false, []⟩], [], 6⟩
        ⟨"a.md", "x"⟩ =
      (⟨[⟨5, "a.md", some "x", false, []⟩], [], 6⟩, .skipped, [.fetchDoc "a.md"]) := by
  exact (sync_checksum_match_frame noFailEnv ["Public"]
    ⟨[⟨5, "a.md", some "x", false, []⟩], [], 6⟩ ⟨"a.md", "x"⟩
    ⟨5, "a.md", some "x", false, []⟩ rfl (by decide) rfl).1 (by decide)

/-- Claim C10: in the reconciliation loop a dangling document whose delete request
fails still increments `deleteCount`, alongside `errorCount`; in general `deleteCount`
counts every dangling document found, i.e. attempted deletions, not successful ones. -/
theorem reconcile_delete_count_attempted (e : Env) (files : List TFile) :
    (∀ ds : List Document, ∀ st : Store,
      (reconcileGo e files ds st).2.1.deleteCount =
        ds.countP (fun d => !(files.any (fun f => f.path == d.path)))) ∧
    (∀ (d : Document) (ds : List Document) (st : Store),
      files.any (fun f => f.path == d.path) = false →
      e.deleteDocumentFails d.path = true →
      (reconcileGo e files (d :: ds) st).2.1.errorCount =
          1 + (reconcileGo e files ds st).2.1.errorCount ∧
      (reconcileGo e files (d :: ds) st).2.1.deleteCount =
          1 + (reconcileGo e files ds st).2.1.deleteCount ∧
      (reconcileGo e files (d :: ds) st).1 = (reconcileGo e files ds st).1) := by
  constructor
  · intro ds
    induction ds with
    | nil => intro st; simp [reconcileGo]
    | cons d ds ih =>
      intro st
      by_cases hin : files.any (fun f => f.path == d.path) = true
      · simp [reconcileGo, hin, List.countP_cons, ih st]
      · simp only [Bool.not_eq_true] at hin
        by_cases hdel : e.deleteDocumentFails d.path = true
        · simp [reconcileGo, hin, hdel, addRes, List.countP_cons, ih st, Nat.add_comm]
        · simp only [Bool.not_eq_true] at hdel
          simp [reconcileGo, hin, hdel, addRes, List.countP_cons,
            ih (deleteByPath st d.path), Nat.add_comm]
  · intro d ds st hin hdel
    simp [reconcileGo, hin, hdel, addRes, Nat.add_comm]

/-- Claim C4: after the per-document pass, every stored document whose path is absent
from the live file list is deleted (when its delete succeeds) and counted in
`deleteCount`; a listing failure only increments `errorCount` and the pass still
returns; a delete failure increments `errorCount` without stopping the loop, whose
effect over the whole snapshot is characterized exactly. -/
theorem sync_reconciliation_deletes_dangling (e : Env) (files : List TFile)
    (st : Store) :
    (e.listDocumentsFails = true →
      reconcile e files st = (st, ⟨0, 0, 1, 0⟩, [.listDocs])) ∧
    (e.listDocumentsFails = false →
      (reconcile e files st).1.docs =
        st.docs.filter (fun x =>
          files.any (fun f => f.path == x.path) || e.deleteDocumentFails x.path) ∧
      (reconcile e files st).2.1.errorCount =
        (st.docs.filter (fun x => !(files.any (fun f => f.path == x.path)) &&
          e.deleteDocumentFails x.path)).length ∧
      (reconcile e files st).2.1.deleteCount =
        (st.docs.filter (fun x => !(files.any (fun f => f.path == x.path)))).length ∧
      (reconcile e files st).2.1.successCount = 0 ∧
      (reconcile e files st).2.1.updatedCount = 0) := by
  constructor
  · intro hlist
    simp [reconcile, hlist]
  · intro hlist
    have h1 := reconcileGo_spec e files st.docs st
    have hrec : reconcile e files st =
        ((reconcileGo e files st.docs st).1, (reconcileGo e files st.docs st).2.1,
          .listDocs :: (reconcileGo e files st.docs st).2.2) := by
      simp [reconcile, hlist]
    refine ⟨?_, ?_, ?_, ?_, ?_⟩
    · rw [hrec]
      dsimp only
      rw [h1.1]
      apply List.filter_congr
      intro x hx
      by_cases hfx : (files.any (fun f => f.path == x.path) ||
          e.deleteDocumentFails x.path) = true
      · rw [hfx]
        have hany : (st.docs.any fun d =>
            (d.path == x.path && !(files.any fun f => f.path == d.path)) &&
              !(e.deleteDocumentFails d.path)) = false := by
          rw [List.any_eq_false]
          intro d hd
          intro hcontra
          by_cases hdx : d.path = x.path
          · rcases Bool.and_eq_true_iff.mp hcontra with ⟨hc1, hc2⟩
            rcases Bool.and_eq_true_iff.mp hc1 with ⟨_, hc3⟩
            rcases Bool.or_eq_true_iff.mp hfx with hf | hf
            · rw [hdx] at hc3
              rw [hf] at hc3
              simp at hc3
            · rw [hdx] at hc2
              rw [hf] at hc2
              simp at hc2
          · rcases Bool.and_eq_true_iff.mp hcontra with ⟨hc1, _⟩
            rcases Bool.and_eq_true_iff.mp hc1 with ⟨hc0, _⟩
            exact hdx (beq_iff_eq.mp hc0)
        rw [hany]
        rfl
      · simp only [Bool.not_eq_true] at hfx
        rw [hfx]
        have hparts := Bool.or_eq_false_iff.mp hfx
        have hany : (st.docs.any fun d =>
            (d.path == x.path && !(files.any fun f => f.path == d.path)) &&
              !(e.deleteDocumentFails d.path)) = true := by
          rw [List.any_eq_true]
          exact ⟨x, hx, by simp [hparts.1, hparts.2]⟩
        rw [hany]
        rfl
    · rw [hrec]; dsimp only; rw [h1.2.2]
    · rw [hrec]; dsimp only; rw [h1.2.2]
    · rw [hrec]; dsimp only; rw [h1.2.2]
    · rw [hrec]; dsimp only; rw [h1.2.2]

/-- Witness for C4: one live file, one dangling document; the dangling one is deleted
and counted. -/
theorem sync_reconciliation_deletes_dangling_witness :
    (reconcile noFailEnv [⟨"keep.md", "k"⟩]
        ⟨[⟨0, "keep.md", some "k", false, []⟩, ⟨1, "gone.md", some "g", false, []⟩],
         [], 2⟩).1.docs =
      List.filter (fun x =>
          List.any [(⟨"keep.md", "k"⟩ : TFile)] (fun f => f.path == x.path) ||
            noFailEnv.deleteDocumentFails x.path)
        [⟨0, "keep.md", some "k", false, []⟩, ⟨1, "gone.md", some "g", false, []⟩] := by
  exact ((sync_reconciliation_deletes_dangling noFailEnv [⟨"keep.md", "k"⟩]
    ⟨[⟨0, "keep.md", some "k", false, []⟩, ⟨1, "gone.md", some "g", false, []⟩],
     [], 2⟩).2 rfl).1

/-- Witness for C10: a store with one dangling document whose delete fails. -/
theorem reconcile_delete_count_attempted_witness :
    (reconcileGo { noFailEnv with deleteDocumentFails := fun _ => true } []
        [⟨0, "gone.md", some "x", false, []⟩] emptyStore).2.1.deleteCount =
      List.countP (fun d => !(List.any [] (fun f => TFile.path f == Document.path d)))
        [⟨0, "gone.md", some "x", false, []⟩] := by
  exact (reconcile_delete_count_attempted
    { noFailEnv with deleteDocumentFails := fun _ => true } []).1
    [⟨0, "gone.md", some "x", false, []⟩] emptyStore

end ObsidianAITools
